import Mathlib

/-!
gaeenv: include resolution for `app.yaml` environment variables.

A shallow embedding of `main.go` (package `main` of gaeenv) and a verification
development over it.

The program reads a root YAML file, recursively loads the files named in its
`includes` list, merges the `env_variables` of every loaded file into one store
and prints the store as `export NAME="VALUE"` lines.

Modelling conventions.

* The operating system, the YAML decoder and `path/filepath` are not part of the
  program; they are the fields of `Env`.  Every theorem quantifies over `Env`.
* A Go function that may end the process yields a `Ctl`: it returns a value,
  or the process has exited through `os.Exit` with a code, or the Go runtime
  has panicked.  All three carry the process state.
* `yaml.Unmarshal` is handed a pointer to the pointer `thisYaml`; for a null
  document it returns no error and leaves `thisYaml` nil, and the next use of
  `thisYaml` panics.  The decoded value is therefore an `Option appYaml`.
* The order in which `(*sync.Map).Range` visits the store differs from one
  execution to the next; it is an argument of `printVars` and of `run`.
* `Proc` is the process state: the receiver `*gaeenv` (the two flags and the
  two `sync.Map`s), the two output channels, and four logs that record what the
  code did (the errors handed to `handleError`, the `AddFile` calls, the files
  handed to `ioutil.ReadFile`, the `g.vars.Store` calls).  The logs are never
  read by the embedded code.
* `AddFile` is recursive over the inclusion graph, which may be cyclic; the
  embedding takes a fuel argument that bounds the depth of the recursion, and
  `AddFile_total` shows that the number of existing paths plus one is enough.
-/

set_option autoImplicit false

namespace Gaeenv

/-! ## Go values -/

/-- The `syscall.Errno` values the development distinguishes. -/
inductive Errno where
  | ENOENT
  | EACCES
  | ENOTDIR
  | EISDIR
  | ELOOP
  deriving DecidableEq, Repr

/-- Text of `Errno.Error()`. -/
def Errno.Error : Errno → String
  | .ENOENT => "no such file or directory"
  | .EACCES => "permission denied"
  | .ENOTDIR => "not a directory"
  | .EISDIR => "is a directory"
  | .ELOOP => "too many levels of symbolic links"

/-- The Go `error` values that reach `handleError`: an `errors.New` string, an
`*os.PathError` (what `os.Stat` and `ioutil.ReadFile` return), or the error
returned by `yaml.Unmarshal`. -/
inductive GoError where
  | errorString (s : String)
  | PathError (Op Path : String) (Err : Errno)
  | yamlError (s : String)
  deriving DecidableEq, Repr

/-- Text of `err.Error()`, which is what `%v` prints. -/
def GoError.Error : GoError → String
  | .errorString s => s
  | .PathError op path err => op ++ " " ++ path ++ ": " ++ err.Error
  | .yamlError s => s

/-- Go's `os.IsNotExist`. -/
def os.IsNotExist : GoError → Bool
  | .PathError _ _ .ENOENT => true
  | _ => false

/-- A Go `map[string]string`: its entries in the order `range` visits them,
with pairwise different keys. -/
structure GoMap where
  entries : List (String × String)
  nodup : (entries.map Prod.fst).Nodup

/-- Value of `m[key]` with its presence flag. -/
def GoMap.get (m : GoMap) (key : String) : Option String :=
  (m.entries.find? (fun kv => decide (kv.1 = key))).map Prod.snd

/-- The struct `appYaml` of `main.go`. -/
structure appYaml where
  Env_variables : GoMap
  Includes : List String

/-- A `sync.Map` with string keys and values, as the list of its entries. -/
abbrev SyncMap := List (String × String)

/-- Go's `(*sync.Map).Load`. -/
def SyncMap.Load : SyncMap → String → Option String
  | [], _ => none
  | (k, v) :: rest, key => if k = key then some v else SyncMap.Load rest key

/-- Go's `(*sync.Map).Store`: overwrite the entry of `key`, or add one. -/
def SyncMap.Store : SyncMap → String → String → SyncMap
  | [], key, value => [(key, value)]
  | (k, v) :: rest, key, value =>
    if k = key then (k, value) :: rest else (k, v) :: SyncMap.Store rest key value

/-! ## The environment of the program -/

/-- What the program does not define itself.
* `stat path`: `none` when `os.Stat(path)` succeeds, else the errno of the
  `*os.PathError` it returns.
* `readFile path`: the content, or the failing operation (`open`, `read`) and
  errno of the `*os.PathError` that `ioutil.ReadFile(path)` returns.
* `unmarshal content`: what `yaml.Unmarshal` leaves in `thisYaml` when it
  returns no error (`none` for the nil pointer a null document leaves), or the
  text of the error it returns.
* `Dir`, `Join`: `filepath.Dir` and `filepath.Join`.
* `logStamp`: the date and time the standard logger puts before a message.
* `panicTrace`: what the Go runtime writes to standard error for the nil
  dereference in `AddFile`. -/
structure Env where
  stat : String → Option Errno
  readFile : String → Except (String × Errno) String
  unmarshal : String → Except String (Option appYaml)
  Dir : String → String
  Join : String → String → String
  logStamp : String
  panicTrace : String

/-- Go's `os.Stat`, error part. -/
def os.Stat (E : Env) (path : String) : Option GoError :=
  (E.stat path).map (GoError.PathError "stat" path)

/-- Go's `ioutil.ReadFile`. -/
def ioutil.ReadFile (E : Env) (path : String) : Except GoError String :=
  match E.readFile path with
  | .ok content => .ok content
  | .error (op, errno) => .error (.PathError op path errno)

/-- Go's `yaml.Unmarshal(content, &thisYaml)`: the error, or the value of
`thisYaml` afterwards, `none` for nil. -/
def yaml.Unmarshal (E : Env) (content : String) : Except GoError (Option appYaml) :=
  match E.unmarshal content with
  | .ok thisYaml => .ok thisYaml
  | .error msg => .error (.yamlError msg)

/-! ## Program state -/

/-- The struct `gaeenv` of `main.go`. -/
structure gaeenv where
  silent : Bool
  force : Bool
  vars : SyncMap
  files : SyncMap
  deriving DecidableEq

/-- The constructor `New` of `main.go`. -/
def New (silent force : Bool) : gaeenv :=
  { silent := silent, force := force, vars := [], files := [] }

/-- Process state: the receiver, standard output and standard error (one entry
per write), and the logs `handled` (errors passed to `handleError`), `calls`
(arguments of every `AddFile` call), `reads` (paths passed to
`ioutil.ReadFile`) and `writes` (arguments of every `g.vars.Store`). -/
structure Proc where
  g : gaeenv
  stdout : List String
  stderr : List String
  handled : List GoError
  calls : List (String × String)
  reads : List String
  writes : List (String × String)
  deriving DecidableEq

/-- Process state at the start of `app.Action`. -/
def Proc.start (silent force : Bool) : Proc :=
  { g := New silent force, stdout := [], stderr := [], handled := [], calls := [],
    reads := [], writes := [] }

/-- Outcome of a Go call that may end the process: it returns `val`, or
`os.Exit(code)` was called, or the Go runtime panicked; `p` is the state at that
point. -/
inductive Ctl (α : Type) where
  | ret (val : α) (p : Proc)
  | exit (code : Nat) (p : Proc)
  | panic (p : Proc)
  deriving DecidableEq

/-- Process state carried by an outcome. -/
def Ctl.proc {α : Type} : Ctl α → Proc
  | .ret _ p => p
  | .exit _ p => p
  | .panic p => p

/-! ## The functions of `main.go` -/

/-- The method `verifyFile` of `main.go`: the returned error and the state. -/
def verifyFile (E : Env) (p : Proc) (parent path : String) : Option GoError × Proc :=
  match SyncMap.Load p.g.files path with
  | some oldParent =>
    (some (.errorString ("Duplicate file: " ++ path ++ " found in " ++ parent ++
      ", was already loaded in " ++ oldParent)), p)
  | none =>
    match os.Stat E path with
    | none => (none, { p with g := { p.g with files := SyncMap.Store p.g.files path parent } })
    | some err =>
      if os.IsNotExist err then (some err, p)
      else (some (.errorString
        "Unable to find %!s(MISSING), file seems to exist, but errors on read"), p)

/-- One `g.vars.Store(key, value)`. -/
def storeVar (p : Proc) (key value : String) : Proc :=
  { p with g := { p.g with vars := SyncMap.Store p.g.vars key value },
           writes := p.writes ++ [(key, value)] }

/-- The method `addVars` of `main.go`. -/
def addVars (p : Proc) (vars : GoMap) : Option GoError × Proc :=
  (none, vars.entries.foldl (fun q kv => storeVar q kv.1 kv.2) p)

/-- The method `handleError` of `main.go`. -/
def handleError (p : Proc) (fn : String) (err : GoError) : Ctl (Option GoError) :=
  let p := { p with handled := p.handled ++ [err] }
  let p := if !p.g.silent then
      { p with stderr := p.stderr ++ ["Error in " ++ fn ++ ", " ++ err.Error ++ "\n"] }
    else p
  if !p.g.force then .exit 1 p else .ret none p

/-- How the `for ... range thisYaml.Includes` loop of `AddFile` ends: it runs to
its end, or its body returns from `AddFile`. -/
inductive LoopEnd where
  | done
  | returned (r : Option GoError)
  deriving DecidableEq

/-- The `for _, file := range thisYaml.Includes` loop of `AddFile`, over the
remaining entries, with `call` the recursive `g.AddFile`. -/
def includeLoop (E : Env) (call : Proc → String → String → Option (Ctl (Option GoError)))
    (path relDir : String) : List String → Proc → Option (Ctl LoopEnd)
  | [], p => some (.ret .done p)
  | file :: rest, p =>
    match call p path (E.Join relDir file) with
    | none => none
    | some (.exit c q) => some (.exit c q)
    | some (.panic q) => some (.panic q)
    | some (.ret (some err) q) =>
      match handleError q "AddFile" err with
      | .exit c q => some (.exit c q)
      | .panic q => some (.panic q)
      | .ret r q => some (.ret (.returned r) q)
    | some (.ret none q) => includeLoop E call path relDir rest q

/-- Log the call `g.AddFile(parent, path)`. -/
def Proc.enter (p : Proc) (parent path : String) : Proc :=
  { p with calls := p.calls ++ [(parent, path)] }

/-- Log the call `ioutil.ReadFile(path)`. -/
def Proc.reading (p : Proc) (path : String) : Proc :=
  { p with reads := p.reads ++ [path] }

/-- The method `AddFile` of `main.go`.  `none` means the fuel ran out.  When
`yaml.Unmarshal` left `thisYaml` nil, `range thisYaml.Includes` dereferences
nil and the runtime panics. -/
def AddFile (E : Env) : Nat → Proc → String → String → Option (Ctl (Option GoError))
  | 0, _, _, _ => none
  | fuel + 1, p, parent, path =>
    match verifyFile E (p.enter parent path) parent path with
    | (some err, p) => some (handleError p "AddFile" err)
    | (none, p) =>
      let p := p.reading path
      match ioutil.ReadFile E path with
      | .error err => some (handleError p "AddFile" err)
      | .ok content =>
        match yaml.Unmarshal E content with
        | .error err => some (handleError p "AddFile" err)
        | .ok none => some (.panic p)
        | .ok (some thisYaml) =>
          let relDir := E.Dir path
          match includeLoop E (AddFile E fuel) path relDir thisYaml.Includes p with
          | none => none
          | some (.exit c q) => some (.exit c q)
          | some (.panic q) => some (.panic q)
          | some (.ret (.returned r) q) => some (.ret r q)
          | some (.ret .done q) =>
            match addVars q thisYaml.Env_variables with
            | (some err, q) => some (handleError q "AddFile" err)
            | (none, q) => some (.ret none q)

/-- The line `printVars` prints for one entry. -/
def exportLine (kv : String × String) : String :=
  "export " ++ kv.1 ++ "=\"" ++ kv.2 ++ "\"\n"

/-- The method `printVars` of `main.go`; `order` is the order in which
`g.vars.Range` visits the entries of the store in this execution. -/
def printVars (order : List (String × String) → List (String × String)) (p : Proc) : Proc :=
  { p with stdout := p.stdout ++ (order p.g.vars).map exportLine }

/-- The `app.Action` closure of `main`, followed by the end of `main`: the exit
code of the process and its final state.  `order` is the order of `Range` in
this execution.  A panic ends the process with code 2 after the runtime has
written its trace to standard error. -/
def run (E : Env) (order : List (String × String) → List (String × String)) (fuel : Nat)
    (silent force : Bool) (yamlFile : String) : Option (Nat × Proc) :=
  match AddFile E fuel (Proc.start silent force) "" yamlFile with
  | none => none
  | some (.exit c p) => some (c, p)
  | some (.panic p) => some (2, { p with stderr := p.stderr ++ [E.panicTrace] })
  | some (.ret (some err) p) =>
    some (1, { p with stderr := p.stderr ++ [E.logStamp ++ err.Error ++ "\n"] })
  | some (.ret none p) => some (0, printVars order p)

/-! ## A model of `path/filepath` on Unix -/

/-- Split at every `/`. -/
def filepath.split : List Char → List (List Char)
  | [] => [[]]
  | c :: cs =>
    if c = '/' then [] :: filepath.split cs
    else match filepath.split cs with
      | [] => [[c]]
      | x :: xs => (c :: x) :: xs

/-- One element of the path in `filepath.Clean`: `out` is the stack of the
elements kept so far, the last one first. -/
def filepath.cleanStep (rooted : Bool) (out : List (List Char)) (c : List Char) :
    List (List Char) :=
  if c = [] ∨ c = ['.'] then out
  else if c = ['.', '.'] then
    match out with
    | top :: below => if top = ['.', '.'] then c :: out else below
    | [] => if rooted then [] else [c]
  else c :: out

/-- Go's `filepath.Clean` on Unix: drop empty and `.` elements, resolve `..`
against the element before it, keep a leading `/`, and give `.` for an empty
result. -/
def filepath.Clean (path : String) : String :=
  if path = "" then "."
  else
    let rooted := decide (path.data.head? = some '/')
    let out := ((filepath.split path.data).foldl (filepath.cleanStep rooted) []).reverse
    let body := String.mk (List.intercalate ['/'] out)
    if rooted then "/" ++ body else if out = [] then "." else body

/-- Go's `filepath.Dir` on Unix: `Clean` of the path up to its last `/`. -/
def filepath.Dir (path : String) : String :=
  filepath.Clean (String.mk (path.data.reverse.dropWhile (fun c => decide (c ≠ '/'))).reverse)

/-- Go's `filepath.Join` of two elements on Unix. -/
def filepath.Join (a b : String) : String :=
  if a ≠ "" then filepath.Clean (a ++ "/" ++ b)
  else if b ≠ "" then filepath.Clean b
  else ""

/-! ## Concrete environments -/

/-- An environment over a table of files (path, content) and a table of
documents (content, what `yaml.Unmarshal` leaves in `thisYaml`): a path outside
the first table does not exist, a content outside the second one is
malformed. -/
def Env.ofTables (files : List (String × String)) (docs : List (String × Option appYaml)) :
    Env :=
  { stat := fun path =>
      match files.find? (fun f => decide (f.1 = path)) with
      | some _ => none
      | none => some .ENOENT
    readFile := fun path =>
      match files.find? (fun f => decide (f.1 = path)) with
      | some f => .ok f.2
      | none => .error ("open", .ENOENT)
    unmarshal := fun content =>
      match docs.find? (fun d => decide (d.1 = content)) with
      | some d => .ok d.2
      | none => .error "yaml: line 1: did not find expected node content"
    Dir := filepath.Dir
    Join := filepath.Join
    logStamp := "2009/11/10 23:00:00 "
    panicTrace := "panic: runtime error: invalid memory address or nil pointer dereference\n" }

/-- A Go map literal. -/
def GoMap.ofList (l : List (String × String)) (h : (l.map Prod.fst).Nodup) : GoMap := ⟨l, h⟩

/-- Document of the root of `parentChildEnv`. -/
def parentDoc : appYaml :=
  { Env_variables := GoMap.ofList [("A", "1")] (by decide), Includes := ["child.yaml"] }

/-- Document of the child of `parentChildEnv`. -/
def childDoc : appYaml :=
  { Env_variables := GoMap.ofList [("A", "2"), ("B", "3")] (by decide), Includes := [] }

/-- Root `app.yaml` defines `A=1` and includes `child.yaml`, which defines
`A=2` and `B=3`. -/
def parentChildEnv : Env :=
  Env.ofTables
    [("app.yaml", "env_variables:\n  A: \"1\"\nincludes:\n- child.yaml\n"),
     ("child.yaml", "env_variables:\n  A: \"2\"\n  B: \"3\"\n")]
    [("env_variables:\n  A: \"1\"\nincludes:\n- child.yaml\n", some parentDoc),
     ("env_variables:\n  A: \"2\"\n  B: \"3\"\n", some childDoc)]

/-- Document of the root of `singleEnv`. -/
def singleDoc : appYaml :=
  { Env_variables := GoMap.ofList [("A", "1")] (by decide), Includes := [] }

/-- Root `app.yaml` defines `A=1` and has no includes. -/
def singleEnv : Env :=
  Env.ofTables [("app.yaml", "env_variables:\n  A: \"1\"\n")]
    [("env_variables:\n  A: \"1\"\n", some singleDoc)]

/-- Root `bad.yaml` exists and is not a YAML document. -/
def badEnv : Env := Env.ofTables [("bad.yaml", "\x7b")] []

/-- Document of `a.yaml` in `cycleEnv`. -/
def cycleDoc : appYaml :=
  { Env_variables := GoMap.ofList [("A", "1")] (by decide), Includes := ["a.yaml"] }

/-- Root `a.yaml` includes itself. -/
def cycleEnv : Env :=
  Env.ofTables [("a.yaml", "env_variables:\n  A: \"1\"\nincludes:\n- a.yaml\n")]
    [("env_variables:\n  A: \"1\"\nincludes:\n- a.yaml\n", some cycleDoc)]

/-- Document of the root of `diamondEnv`. -/
def diamondRoot : appYaml :=
  { Env_variables := GoMap.ofList [] (by decide), Includes := ["b.yaml", "c.yaml"] }

/-- Document of `b.yaml` and of `c.yaml` in `diamondEnv`. -/
def diamondSide : appYaml :=
  { Env_variables := GoMap.ofList [] (by decide), Includes := ["x.yaml"] }

/-- Document of `x.yaml` in `diamondEnv`. -/
def diamondLeaf : appYaml :=
  { Env_variables := GoMap.ofList [("X", "1")] (by decide), Includes := [] }

/-- Root `app.yaml` includes `b.yaml` and `c.yaml`, which both include
`x.yaml`. -/
def diamondEnv : Env :=
  Env.ofTables
    [("app.yaml", "includes:\n- b.yaml\n- c.yaml\n"),
     ("b.yaml", "includes:\n- x.yaml\n"),
     ("c.yaml", "includes:\n- x.yaml\n"),
     ("x.yaml", "env_variables:\n  X: \"1\"\n")]
    [("includes:\n- b.yaml\n- c.yaml\n", some diamondRoot),
     ("includes:\n- x.yaml\n", some diamondSide),
     ("env_variables:\n  X: \"1\"\n", some diamondLeaf)]

/-- Document of the root of `abortEnv`. -/
def abortRoot : appYaml :=
  { Env_variables := GoMap.ofList [("B", "2")] (by decide),
    Includes := ["ok.yaml", "missing.yaml", "late.yaml"] }

/-- Document of `ok.yaml` in `abortEnv`. -/
def abortOk : appYaml :=
  { Env_variables := GoMap.ofList [("A", "1")] (by decide), Includes := [] }

/-- Document of `late.yaml` in `abortEnv`. -/
def abortLate : appYaml :=
  { Env_variables := GoMap.ofList [("C", "3")] (by decide), Includes := [] }

/-- Root `app.yaml` defines `B=2` and includes `ok.yaml` (which defines
`A=1`), then `missing.yaml` (which does not exist), then `late.yaml` (which
defines `C=3`). -/
def abortEnv : Env :=
  Env.ofTables
    [("app.yaml",
        "env_variables:\n  B: \"2\"\nincludes:\n- ok.yaml\n- missing.yaml\n- late.yaml\n"),
     ("ok.yaml", "env_variables:\n  A: \"1\"\n"),
     ("late.yaml", "env_variables:\n  C: \"3\"\n")]
    [("env_variables:\n  B: \"2\"\nincludes:\n- ok.yaml\n- missing.yaml\n- late.yaml\n",
        some abortRoot),
     ("env_variables:\n  A: \"1\"\n", some abortOk),
     ("env_variables:\n  C: \"3\"\n", some abortLate)]

/-- Document of the root of `siblingsEnv`. -/
def siblingsRoot : appYaml :=
  { Env_variables := GoMap.ofList [] (by decide), Includes := ["s1.yaml", "s2.yaml"] }

/-- Document of `s1.yaml` in `siblingsEnv`. -/
def siblingsFirst : appYaml :=
  { Env_variables := GoMap.ofList [("A", "1")] (by decide), Includes := [] }

/-- Document of `s2.yaml` in `siblingsEnv`. -/
def siblingsSecond : appYaml :=
  { Env_variables := GoMap.ofList [("A", "2")] (by decide), Includes := [] }

/-- Root `app.yaml` has no variables and includes `s1.yaml` (`A=1`), then
`s2.yaml` (`A=2`). -/
def siblingsEnv : Env :=
  Env.ofTables
    [("app.yaml", "includes:\n- s1.yaml\n- s2.yaml\n"),
     ("s1.yaml", "env_variables:\n  A: \"1\"\n"),
     ("s2.yaml", "env_variables:\n  A: \"2\"\n")]
    [("includes:\n- s1.yaml\n- s2.yaml\n", some siblingsRoot),
     ("env_variables:\n  A: \"1\"\n", some siblingsFirst),
     ("env_variables:\n  A: \"2\"\n", some siblingsSecond)]

/-- Document of `conf/app.yaml` in `nestedEnv`. -/
def nestedRoot : appYaml :=
  { Env_variables := GoMap.ofList [] (by decide), Includes := ["sub/a.yaml"] }

/-- Document of `conf/sub/a.yaml` in `nestedEnv`. -/
def nestedMid : appYaml :=
  { Env_variables := GoMap.ofList [] (by decide), Includes := ["b.yaml"] }

/-- Document of a file that defines `V` as `value`. -/
def nestedLeaf (value : String) (h : ([("V", value)].map Prod.fst).Nodup) : appYaml :=
  { Env_variables := GoMap.ofList [("V", value)] h, Includes := [] }

/-- Root `conf/app.yaml` includes `sub/a.yaml`, and `conf/sub/a.yaml` includes
`b.yaml`.  There is a `b.yaml` next to the including file (`conf/sub/b.yaml`),
one in the directory of the root (`conf/b.yaml`) and one in the working
directory (`b.yaml`); each gives `V` another value. -/
def nestedEnv : Env :=
  Env.ofTables
    [("conf/app.yaml", "includes:\n- sub/a.yaml\n"),
     ("conf/sub/a.yaml", "includes:\n- b.yaml\n"),
     ("conf/sub/b.yaml", "env_variables:\n  V: nested\n"),
     ("conf/b.yaml", "env_variables:\n  V: rootdir\n"),
     ("b.yaml", "env_variables:\n  V: workdir\n")]
    [("includes:\n- sub/a.yaml\n", some nestedRoot),
     ("includes:\n- b.yaml\n", some nestedMid),
     ("env_variables:\n  V: nested\n", some (nestedLeaf "nested" (by decide))),
     ("env_variables:\n  V: rootdir\n", some (nestedLeaf "rootdir" (by decide))),
     ("env_variables:\n  V: workdir\n", some (nestedLeaf "workdir" (by decide)))]

/-- Root `app.yaml` holds the null document `~`. -/
def nullRootEnv : Env := Env.ofTables [("app.yaml", "~\n")] [("~\n", none)]

/-- Document of the root of `nullIncludeEnv`. -/
def nullIncludeRoot : appYaml :=
  { Env_variables := GoMap.ofList [("A", "1")] (by decide), Includes := ["null.yaml"] }

/-- Root `app.yaml` defines `A=1` and includes `null.yaml`, which holds the null
document `~`. -/
def nullIncludeEnv : Env :=
  Env.ofTables
    [("app.yaml", "env_variables:\n  A: \"1\"\nincludes:\n- null.yaml\n"),
     ("null.yaml", "~\n")]
    [("env_variables:\n  A: \"1\"\nincludes:\n- null.yaml\n", some nullIncludeRoot),
     ("~\n", none)]

/-- Document of the root of `multilineEnv`: the value of `Q` holds a newline. -/
def multilineDoc : appYaml :=
  { Env_variables := GoMap.ofList [("Q", "a\nb")] (by decide), Includes := [] }

/-- Root `app.yaml` defines `Q` as the double-quoted YAML scalar `"a\nb"`, a
text of two lines. -/
def multilineEnv : Env :=
  Env.ofTables [("app.yaml", "env_variables:\n  Q: \"a\\nb\"\n")]
    [("env_variables:\n  Q: \"a\\nb\"\n", some multilineDoc)]

/-! ## Auxiliary notions used in the statements -/

/-- State after the successful `g.files.Store(path, parent)` of `verifyFile`. -/
def Proc.register (p : Proc) (parent path : String) : Proc :=
  { p with g := { p.g with files := SyncMap.Store p.g.files path parent } }

/-- State in which `AddFile(parent, path)`, called in `p`, enters its loop:
the call is logged, `path` is registered and has been read. -/
def Proc.loaded (p : Proc) (parent path : String) : Proc :=
  ((p.enter parent path).register parent path).reading path

/-- State in which `handleError` leaves the process, whether or not it exits. -/
def Proc.report (p : Proc) (fn : String) (err : GoError) : Proc :=
  { p with
    handled := p.handled ++ [err]
    stderr := if p.g.silent then p.stderr
      else p.stderr ++ ["Error in " ++ fn ++ ", " ++ err.Error ++ "\n"] }

/-- File `path` can be read and its content decodes to the document `doc`. -/
def Parses (E : Env) (path : String) (doc : appYaml) : Prop :=
  ∃ content, E.readFile path = .ok content ∧ E.unmarshal content = .ok (some doc)

/-- File `path` can be read and its content is a null document: `yaml.Unmarshal`
returns no error and leaves `thisYaml` nil. -/
def NullDocument (E : Env) (path : String) : Prop :=
  ∃ content, E.readFile path = .ok content ∧ E.unmarshal content = .ok none

/-- The call `AddFile(_, path)` made in state `p` gets through `verifyFile`,
`ioutil.ReadFile` and `yaml.Unmarshal`, the latter giving `doc`. -/
def Resolves (E : Env) (p : Proc) (path : String) (doc : appYaml) : Prop :=
  SyncMap.Load p.g.files path = none ∧ E.stat path = none ∧ Parses E path doc

/-- The call `AddFile(_, path)` made in state `p` gets through `verifyFile` and
`ioutil.ReadFile`, and `yaml.Unmarshal` leaves `thisYaml` nil. -/
def Panics (E : Env) (p : Proc) (path : String) : Prop :=
  SyncMap.Load p.g.files path = none ∧ E.stat path = none ∧ NullDocument E path

/-- The error that `AddFile(parent, path)`, called in state `p`, hands to
`handleError` before its loop, with the state at that point; `none` when
`verifyFile`, `ioutil.ReadFile` and `yaml.Unmarshal` all return no error. -/
def failure (E : Env) (p : Proc) (parent path : String) : Option (GoError × Proc) :=
  match verifyFile E (p.enter parent path) parent path with
  | (some err, q) => some (err, q)
  | (none, q) =>
    match ioutil.ReadFile E path with
    | .error err => some (err, q.reading path)
    | .ok content =>
      match yaml.Unmarshal E content with
      | .error err => some (err, q.reading path)
      | .ok _ => none

/-- The text of error `err` contains the text `s`. -/
def Mentions (err : GoError) (s : String) : Prop := s.data <:+: err.Error.data

instance (err : GoError) (s : String) : Decidable (Mentions err s) := by
  unfold Mentions
  infer_instance

/-- The error `verifyFile` makes for a path that is already registered. -/
def duplicateError (path parent oldParent : String) : GoError :=
  .errorString ("Duplicate file: " ++ path ++ " found in " ++ parent ++
    ", was already loaded in " ++ oldParent)

/-- The state `p` as it is when `silent` is set and nothing was written to
standard error: everything but the flag `silent` and standard error is kept. -/
def Proc.quiet (p : Proc) : Proc :=
  { p with g := { p.g with silent := true }, stderr := [] }

/-- The outcome with its state made quiet. -/
def Ctl.quiet {α : Type} : Ctl α → Ctl α
  | .ret r p => .ret r p.quiet
  | .exit c p => .exit c p.quiet
  | .panic p => .panic p.quiet

/-- The state in which the loop of `AddFile(_, path)`, entered in state `p0`
with the document `doc`, has got through its first `n` includes; `none` when it
does not get that far. -/
def stateAfter (E : Env) (fuel : Nat) (path : String) (doc : appYaml) (p0 : Proc) (n : Nat) :
    Option Proc :=
  match includeLoop E (AddFile E fuel) path (E.Dir path) (doc.Includes.take n) p0 with
  | some (.ret .done q) => some q
  | _ => none

/-- The `g.vars.Store` calls made while the loop processes its include number
`n` (counted from 0): by the included file and everything it includes. -/
def subtreeWrites (E : Env) (fuel : Nat) (path : String) (doc : appYaml) (p0 : Proc) (n : Nat) :
    Option (List (String × String)) :=
  match stateAfter E fuel path doc p0 n, stateAfter E fuel path doc p0 (n + 1) with
  | some a, some b => some (b.writes.drop a.writes.length)
  | _, _ => none

/-- The pair `c` is a call for an include: its first part is a registered file
that decodes to a document, and its second part is an entry of the includes of
that document, joined to the directory of the file. -/
def IncludeCall (E : Env) (q : Proc) (c : String × String) : Prop :=
  SyncMap.Load q.g.files c.1 ≠ none ∧
    ∃ doc e, Parses E c.1 doc ∧ e ∈ doc.Includes ∧ c.2 = E.Join (E.Dir c.1) e

/-- Every path registered from state `p` to state `q` is `path` with origin
`parent`, or is recorded with an origin of which it is an include. -/
def OriginsOK (E : Env) (parent path : String) (p q : Proc) : Prop :=
  ∀ x orig, SyncMap.Load p.g.files x = none → SyncMap.Load q.g.files x = some orig →
    (x = path ∧ orig = parent) ∨ IncludeCall E q (orig, x)

/-- The calls logged from state `p` to state `q` are `(parent, path)` followed
by calls for includes, among them the calls for the entries `done` of the
includes of `path`. -/
def CallsOK (E : Env) (parent path : String) (p q : Proc) (done : List String) : Prop :=
  ∃ cs, q.calls = p.calls ++ (parent, path) :: cs ∧ (∀ c ∈ cs, IncludeCall E q c) ∧
    ∀ e ∈ done, (path, E.Join (E.Dir path) e) ∈ cs

/-- The outcome is a return. -/
def Ctl.isRet {α : Type} : Ctl α → Bool
  | .ret _ _ => true
  | .exit _ _ => false
  | .panic _ => false

/-- File `x` is fully merged in state `q`: if it decodes to a document, then
every variable of the document has a value in the store, and for every entry of
its includes the call was made and, if the included path exists, that path is
registered. -/
def Complete (E : Env) (q : Proc) (x : String) : Prop :=
  ∀ doc, Parses E x doc →
    (∀ kv ∈ doc.Env_variables.entries, SyncMap.Load q.g.vars kv.1 ≠ none) ∧
    (∀ e ∈ doc.Includes, (x, E.Join (E.Dir x) e) ∈ q.calls ∧
      (E.stat (E.Join (E.Dir x) e) = none →
        SyncMap.Load q.g.files (E.Join (E.Dir x) e) ≠ none))

/-- Every entry of the store of `q` was in the store of `p` or is a variable of
a file that decodes and was registered from `p` to `q`. -/
def Provenance (E : Env) (p q : Proc) : Prop :=
  ∀ k v, SyncMap.Load q.g.vars k = some v → SyncMap.Load p.g.vars k = some v ∨
    ∃ x doc, SyncMap.Load p.g.files x = none ∧ SyncMap.Load q.g.files x ≠ none ∧
      Parses E x doc ∧ (k, v) ∈ doc.Env_variables.entries

/-- The characters that a list of writes puts on a channel. -/
def textOf : List String → List Char
  | [] => []
  | w :: ws => w.data ++ textOf ws

/-- The lines of a text, each ended by a newline in the text, and the
characters after the last newline. -/
def linesOf : List Char → List (List Char) × List Char
  | [] => ([], [])
  | c :: cs =>
    if c = '\n' then ([] :: (linesOf cs).1, (linesOf cs).2)
    else match (linesOf cs).1 with
      | [] => ([], c :: (linesOf cs).2)
      | l :: ls => ((c :: l) :: ls, (linesOf cs).2)

/-- The text `export NAME="VALUE"` for one entry. -/
def exportText (kv : String × String) : String :=
  "export " ++ kv.1 ++ "=\"" ++ kv.2 ++ "\""

/-- The text `s` holds no newline. -/
def NoNewline (s : String) : Prop := '\n' ∉ s.data

instance (s : String) : Decidable (NoNewline s) := by
  unfold NoNewline
  infer_instance

/-- A state whose store is `vars`, with nothing else done. -/
def Proc.withStore (vars : SyncMap) : Proc :=
  { g := { silent := false, force := false, vars := vars, files := [] }, stdout := [],
    stderr := [], handled := [], calls := [], reads := [], writes := [] }

/-- Keys of a list of entries. -/
def keysOf (l : List (String × String)) : List String := l.map Prod.fst

/-- What the loop of `AddFile` and the code after it make of the end of the loop. -/
def afterLoop (doc : appYaml) : Option (Ctl LoopEnd) → Option (Ctl (Option GoError))
  | none => none
  | some (.exit c q) => some (.exit c q)
  | some (.panic q) => some (.panic q)
  | some (.ret (.returned r) q) => some (.ret r q)
  | some (.ret .done q) => some (.ret none (addVars q doc.Env_variables).2)

/-- The store after the writes `w`, made in order, to the store `m`. -/
def replay (m : SyncMap) (w : List (String × String)) : SyncMap :=
  w.foldl (fun m kv => SyncMap.Store m kv.1 kv.2) m

/-- The value the writes `w` leave for `key`: that of the last write to it. -/
def lastWrite : List (String × String) → String → Option String
  | [], _ => none
  | (k, v) :: w, key =>
    match lastWrite w key with
    | some v1 => some v1
    | none => if k = key then some v else none

/-- The state changes the code makes, and their compositions: logging a call,
registering an unregistered existing path, logging a read, reporting an error,
storing a variable. -/
inductive Steps (E : Env) : Proc → Proc → Prop where
  | refl (p : Proc) : Steps E p p
  | enter (p : Proc) (parent path : String) : Steps E p (p.enter parent path)
  | register (p : Proc) (parent path : String) (hl : SyncMap.Load p.g.files path = none)
      (hs : E.stat path = none) : Steps E p (p.register parent path)
  | reading (p : Proc) (path : String) : Steps E p (p.reading path)
  | report (p : Proc) (fn : String) (err : GoError) : Steps E p (p.report fn err)
  | store (p : Proc) (key value : String) : Steps E p (storeVar p key value)
  | trans (p q r : Proc) (h1 : Steps E p q) (h2 : Steps E q r) : Steps E p r

/-- Number of entries of `L` that are not registered in `p`. -/
def unregistered (L : List String) (p : Proc) : Nat :=
  (L.filter (fun x => decide (SyncMap.Load p.g.files x = none))).length

/-- The reads made from state `p` to state `q`: `q.reads` extends `p.reads` by
pairwise different paths that exist, were unregistered in `p` and are
registered in `q`. -/
def NewReads (E : Env) (p q : Proc) : Prop :=
  Steps E p q ∧ ∃ w, q.reads = p.reads ++ w ∧ w.Nodup ∧
    ∀ x ∈ w, E.stat x = none ∧ SyncMap.Load p.g.files x = none ∧
      SyncMap.Load q.g.files x ≠ none

/-! ## Basic facts -/

theorem SyncMap.Load_Store_self (m : SyncMap) (k v : String) :
    SyncMap.Load (SyncMap.Store m k v) k = some v := by
  induction m with
  | nil => simp [SyncMap.Store, SyncMap.Load]
  | cons a m ih =>
    obtain ⟨k0, v0⟩ := a
    by_cases h : k0 = k
    · simp [SyncMap.Store, SyncMap.Load, h]
    · simp [SyncMap.Store, SyncMap.Load, h, ih]

theorem SyncMap.Load_Store_of_ne (m : SyncMap) (k v k1 : String) (h : k1 ≠ k) :
    SyncMap.Load (SyncMap.Store m k v) k1 = SyncMap.Load m k1 := by
  induction m with
  | nil => simp [SyncMap.Store, SyncMap.Load, Ne.symm h]
  | cons a m ih =>
    obtain ⟨k0, v0⟩ := a
    by_cases h0 : k0 = k
    · subst h0
      simp [SyncMap.Store, SyncMap.Load, Ne.symm h]
    · by_cases h1 : k0 = k1
      · subst h1
        simp [SyncMap.Store, SyncMap.Load, h0]
      · simp [SyncMap.Store, SyncMap.Load, h0, h1, ih]

theorem SyncMap.Load_Store (m : SyncMap) (k v k1 : String) :
    SyncMap.Load (SyncMap.Store m k v) k1 = if k1 = k then some v else SyncMap.Load m k1 := by
  by_cases h : k1 = k
  · subst h
    simp [SyncMap.Load_Store_self]
  · simp [h, SyncMap.Load_Store_of_ne]

theorem handleError_eq (p : Proc) (fn : String) (err : GoError) :
    handleError p fn err =
      if p.g.force then .ret none (p.report fn err) else .exit 1 (p.report fn err) := by
  cases hs : p.g.silent <;> cases hf : p.g.force <;> simp [handleError, Proc.report, hs, hf]

theorem verifyFile_none_iff (E : Env) (p q : Proc) (parent path : String) :
    verifyFile E p parent path = (none, q) ↔
      SyncMap.Load p.g.files path = none ∧ E.stat path = none ∧ q = p.register parent path := by
  unfold verifyFile
  cases hl : SyncMap.Load p.g.files path with
  | some o => simp
  | none =>
    cases hs : E.stat path with
    | none => simp [os.Stat, hs, Proc.register, eq_comm]
    | some e =>
      simp only [os.Stat, hs, Option.map_some']
      split <;> simp

theorem verifyFile_some_state (E : Env) (p q : Proc) (parent path : String) (err : GoError)
    (h : verifyFile E p parent path = (some err, q)) : q = p := by
  unfold verifyFile at h
  cases hl : SyncMap.Load p.g.files path with
  | some o => simp [hl] at h; exact h.2.symm
  | none =>
    cases hs : E.stat path with
    | none => simp [hl, os.Stat, hs] at h
    | some e =>
      simp only [hl, os.Stat, hs, Option.map_some'] at h
      split at h <;> simp at h <;> exact h.2.symm

theorem failure_cases (E : Env) (p q : Proc) (parent path : String) (err : GoError)
    (h : failure E p parent path = some (err, q)) :
    (∃ o, SyncMap.Load p.g.files path = some o ∧ q = p.enter parent path ∧
        err = .errorString ("Duplicate file: " ++ path ++ " found in " ++ parent ++
          ", was already loaded in " ++ o)) ∨
    (∃ e, SyncMap.Load p.g.files path = none ∧ E.stat path = some e ∧ q = p.enter parent path ∧
        err = if e = .ENOENT then .PathError "stat" path e else .errorString
          "Unable to find %!s(MISSING), file seems to exist, but errors on read") ∨
    (∃ op e, SyncMap.Load p.g.files path = none ∧ E.stat path = none ∧
        E.readFile path = .error (op, e) ∧ q = p.loaded parent path ∧
        err = .PathError op path e) ∨
    (∃ content msg, SyncMap.Load p.g.files path = none ∧ E.stat path = none ∧
        E.readFile path = .ok content ∧ E.unmarshal content = .error msg ∧
        q = p.loaded parent path ∧ err = .yamlError msg) := by
  unfold failure at h
  cases hv : verifyFile E (p.enter parent path) parent path with
  | mk r q1 =>
    rw [hv] at h
    cases r with
    | some e1 =>
      simp only [Option.some.injEq, Prod.mk.injEq] at h
      obtain ⟨rfl, rfl⟩ := h
      have hq := verifyFile_some_state E _ _ _ _ _ hv
      subst hq
      unfold verifyFile at hv
      cases hl : SyncMap.Load (p.enter parent path).g.files path with
      | some o =>
        left
        refine ⟨o, hl, rfl, ?_⟩
        simp [hl] at hv
        exact hv.symm
      | none =>
        right; left
        cases hs : E.stat path with
        | none => simp [hl, os.Stat, hs] at hv
        | some e =>
          refine ⟨e, hl, rfl, rfl, ?_⟩
          simp only [hl, os.Stat, hs, Option.map_some'] at hv
          cases e <;> simp [os.IsNotExist] at hv <;> simp [hv]
    | none =>
      obtain ⟨hl, hs, rfl⟩ := (verifyFile_none_iff E _ _ _ _).1 hv
      right; right
      simp only [ioutil.ReadFile] at h
      cases hr : E.readFile path with
      | error oe =>
        obtain ⟨op, e⟩ := oe
        left
        simp only [hr, Option.some.injEq, Prod.mk.injEq] at h
        exact ⟨op, e, hl, hs, rfl, h.2.symm, h.1.symm⟩
      | ok content =>
        right
        simp only [hr, yaml.Unmarshal] at h
        cases hu : E.unmarshal content with
        | error msg =>
          simp only [hu, Option.some.injEq, Prod.mk.injEq] at h
          exact ⟨content, msg, hl, hs, rfl, hu, h.2.symm, h.1.symm⟩
        | ok doc => simp [hu] at h

theorem failure_none_iff (E : Env) (p : Proc) (parent path : String) :
    failure E p parent path = none ↔ (∃ doc, Resolves E p path doc) ∨ Panics E p path := by
  unfold failure Resolves Panics Parses NullDocument
  cases hv : verifyFile E (p.enter parent path) parent path with
  | mk r q1 =>
    cases r with
    | some e1 =>
      simp only [reduceCtorEq, false_iff, not_or, not_exists, not_and]
      have hno : ¬ (SyncMap.Load p.g.files path = none ∧ E.stat path = none) := by
        rintro ⟨hl, hs⟩
        have := (verifyFile_none_iff E (p.enter parent path)
          ((p.enter parent path).register parent path) parent path).2 ⟨hl, hs, rfl⟩
        rw [hv] at this
        simp at this
      exact ⟨fun doc hl hs => absurd ⟨hl, hs⟩ hno, fun hl hs => absurd ⟨hl, hs⟩ hno⟩
    | none =>
      obtain ⟨hl, hs, rfl⟩ := (verifyFile_none_iff E _ _ _ _).1 hv
      have hl1 : SyncMap.Load p.g.files path = none := hl
      simp only [ioutil.ReadFile, yaml.Unmarshal]
      cases hr : E.readFile path with
      | error oe => simp
      | ok content =>
        cases hu : E.unmarshal content with
        | error msg => simp [hl1, hs, hu]
        | ok doc =>
          cases doc with
          | none => simp [hl1, hs, hu]
          | some d => simp [hl1, hs, hu]

theorem failure_none_of_resolves (E : Env) (p : Proc) (parent path : String) (doc : appYaml)
    (h : Resolves E p path doc) : failure E p parent path = none :=
  (failure_none_iff E p parent path).2 (Or.inl ⟨doc, h⟩)

/-- A call of `AddFile` fails before its loop, or resolves to a document, or
finds a null document. -/
theorem failure_of_not_resolves (E : Env) (p : Proc) (parent path : String) :
    (∃ err q, failure E p parent path = some (err, q)) ∨ (∃ doc, Resolves E p path doc) ∨
      Panics E p path := by
  cases h : failure E p parent path with
  | none => exact Or.inr ((failure_none_iff E p parent path).1 h)
  | some eq => exact Or.inl ⟨eq.1, eq.2, rfl⟩

theorem AddFile_of_failure (E : Env) (fuel : Nat) (p q : Proc) (parent path : String)
    (err : GoError) (h : failure E p parent path = some (err, q)) :
    AddFile E (fuel + 1) p parent path = some (handleError q "AddFile" err) := by
  unfold failure at h
  unfold AddFile
  cases hv : verifyFile E (p.enter parent path) parent path with
  | mk r q1 =>
    rw [hv] at h
    cases r with
    | some e1 =>
      simp only [Option.some.injEq, Prod.mk.injEq] at h
      obtain ⟨rfl, rfl⟩ := h
      rfl
    | none =>
      simp only
      cases hr : ioutil.ReadFile E path with
      | error e =>
        simp only [hr, Option.some.injEq, Prod.mk.injEq] at h
        obtain ⟨rfl, rfl⟩ := h
        rfl
      | ok content =>
        simp only [hr] at h
        cases hu : yaml.Unmarshal E content with
        | error e =>
          simp only [hu, Option.some.injEq, Prod.mk.injEq] at h
          obtain ⟨rfl, rfl⟩ := h
          simp only [hu]
        | ok doc => simp [hu] at h

theorem AddFile_of_null (E : Env) (fuel : Nat) (p : Proc) (parent path : String)
    (h : Panics E p path) :
    AddFile E (fuel + 1) p parent path = some (.panic (p.loaded parent path)) := by
  obtain ⟨hl, hs, content, hr, hu⟩ := h
  have hv := (verifyFile_none_iff E (p.enter parent path)
    ((p.enter parent path).register parent path) parent path).2 ⟨hl, hs, rfl⟩
  unfold AddFile
  rw [hv]
  simp only [ioutil.ReadFile, hr, yaml.Unmarshal, hu]
  rfl

theorem AddFile_of_resolves (E : Env) (fuel : Nat) (p : Proc) (parent path : String)
    (doc : appYaml) (h : Resolves E p path doc) :
    AddFile E (fuel + 1) p parent path =
      afterLoop doc (includeLoop E (AddFile E fuel) path (E.Dir path) doc.Includes
        (p.loaded parent path)) := by
  obtain ⟨hl, hs, content, hr, hu⟩ := h
  have hv := (verifyFile_none_iff E (p.enter parent path)
    ((p.enter parent path).register parent path) parent path).2 ⟨hl, hs, rfl⟩
  unfold AddFile
  rw [hv]
  simp only [ioutil.ReadFile, hr, yaml.Unmarshal, hu]
  unfold afterLoop Proc.loaded
  split <;> simp_all [addVars]

theorem includeLoop_not_returned (E : Env)
    (call : Proc → String → String → Option (Ctl (Option GoError)))
    (hcall : ∀ q a b r q1, call q a b = some (.ret r q1) → r = none)
    (path relDir : String) (l : List String) :
    ∀ (q : Proc) (r : Option GoError) (q1 : Proc),
      includeLoop E call path relDir l q ≠ some (.ret (.returned r) q1) := by
  induction l with
  | nil => intro q r q1; simp [includeLoop]
  | cons file rest ih =>
    intro q r q1
    unfold includeLoop
    cases hc : call q path (E.Join relDir file) with
    | none => simp
    | some o =>
      cases o with
      | exit c q2 => simp
      | panic q2 => simp
      | ret r2 q2 =>
        have := hcall _ _ _ _ _ hc
        subst this
        exact ih q2 r q1

theorem AddFile_ret_none (E : Env) :
    ∀ (fuel : Nat) (p : Proc) (parent path : String) (r : Option GoError) (q : Proc),
      AddFile E fuel p parent path = some (.ret r q) → r = none := by
  intro fuel
  induction fuel with
  | zero => intro p parent path r q h; simp [AddFile] at h
  | succ fuel ih =>
    intro p parent path r q h
    rcases failure_of_not_resolves E p parent path with ⟨err, q0, hf⟩ | ⟨doc, hres⟩ | hnull
    · rw [AddFile_of_failure E fuel p q0 parent path err hf, handleError_eq] at h
      split at h <;> simp at h
      exact h.1.symm
    · rw [AddFile_of_resolves E fuel p parent path doc hres] at h
      cases hl : includeLoop E (AddFile E fuel) path (E.Dir path) doc.Includes
          (p.loaded parent path) with
      | none => simp [hl, afterLoop] at h
      | some lo =>
        cases lo with
        | exit c q2 => simp [hl, afterLoop] at h
        | panic q2 => simp [hl, afterLoop] at h
        | ret le q2 =>
          cases le with
          | done =>
            simp [hl, afterLoop] at h
            exact h.1.symm
          | returned r2 =>
            exact absurd hl (includeLoop_not_returned E _ ih _ _ _ _ _ _)
    · rw [AddFile_of_null E fuel p parent path hnull] at h
      simp at h

theorem AddFile_ret_of_isRet (E : Env) (fuel : Nat) (p : Proc) (parent path : String)
    (h : (AddFile E fuel p parent path).map Ctl.isRet = some true) :
    ∃ q, AddFile E fuel p parent path = some (.ret none q) := by
  cases hc : AddFile E fuel p parent path with
  | none => simp [hc] at h
  | some o =>
    cases o with
    | exit c q => simp [hc, Ctl.isRet] at h
    | panic q => simp [hc, Ctl.isRet] at h
    | ret r q =>
      have := AddFile_ret_none E _ _ _ _ _ _ hc
      subst this
      exact ⟨q, rfl⟩

theorem includeLoop_cons_eq (E : Env) (fuel : Nat) (path relDir file : String)
    (rest : List String) (q : Proc) :
    includeLoop E (AddFile E fuel) path relDir (file :: rest) q =
      match AddFile E fuel q path (E.Join relDir file) with
      | none => none
      | some (.exit c q1) => some (.exit c q1)
      | some (.panic q1) => some (.panic q1)
      | some (.ret _ q1) => includeLoop E (AddFile E fuel) path relDir rest q1 := by
  conv_lhs => unfold includeLoop
  cases hc : AddFile E fuel q path (E.Join relDir file) with
  | none => rfl
  | some o =>
    cases o with
    | exit c q1 => rfl
    | panic q1 => rfl
    | ret r q1 =>
      have := AddFile_ret_none E _ _ _ _ _ _ hc
      subst this
      rfl

/-- Proof rule for `AddFile`.  To show that every outcome `o` of a call made in
state `p` satisfies `R parent path p o`, give an invariant `L` of the loop over
the includes (indexed by the entries already processed) and show: a failing call
satisfies `R`; a call that finds a null document satisfies `R` with its panic;
the loop starts in `L`; a returning recursive call keeps `L`; a recursive call
that ends the process gives `R` for the caller; and `L` at the end of the loop
gives `R` after `addVars`. -/
theorem AddFile_rule (E : Env)
    (R : String → String → Proc → Ctl (Option GoError) → Prop)
    (L : String → String → appYaml → Proc → List String → Proc → Prop)
    (hfail : ∀ p parent path err q, failure E p parent path = some (err, q) →
      R parent path p (handleError q "AddFile" err))
    (hnull : ∀ p parent path, Panics E p path →
      R parent path p (.panic (p.loaded parent path)))
    (hstart : ∀ p parent path doc, Resolves E p path doc →
      L parent path doc p [] (p.loaded parent path))
    (hstep : ∀ p parent path doc done file rest q q1, Resolves E p path doc →
      doc.Includes = done ++ file :: rest → L parent path doc p done q →
      (∃ n, AddFile E n q path (E.Join (E.Dir path) file) = some (.ret none q1)) →
      R path (E.Join (E.Dir path) file) q (.ret none q1) →
      L parent path doc p (done ++ [file]) q1)
    (hexit : ∀ p parent path doc done file rest q o1, Resolves E p path doc →
      doc.Includes = done ++ file :: rest → L parent path doc p done q →
      o1.isRet = false →
      (∃ n, AddFile E n q path (E.Join (E.Dir path) file) = some o1) →
      R path (E.Join (E.Dir path) file) q o1 →
      R parent path p o1)
    (hfin : ∀ p parent path doc q, Resolves E p path doc →
      L parent path doc p doc.Includes q →
      R parent path p (.ret none (addVars q doc.Env_variables).2)) :
    ∀ (fuel : Nat) (p : Proc) (parent path : String) (o : Ctl (Option GoError)),
      AddFile E fuel p parent path = some o → R parent path p o := by
  intro fuel
  induction fuel with
  | zero => intro p parent path o h; simp [AddFile] at h
  | succ fuel ih =>
    intro p parent path o h
    rcases failure_of_not_resolves E p parent path with ⟨err, q0, hf⟩ | ⟨doc, hres⟩ | hn
    · rw [AddFile_of_failure E fuel p q0 parent path err hf] at h
      simp only [Option.some.injEq] at h
      subst h
      exact hfail p parent path err q0 hf
    · rw [AddFile_of_resolves E fuel p parent path doc hres] at h
      have key : ∀ (rest done : List String) (q : Proc), doc.Includes = done ++ rest →
          L parent path doc p done q →
          afterLoop doc (includeLoop E (AddFile E fuel) path (E.Dir path) rest q) = some o →
          R parent path p o := by
        intro rest
        induction rest with
        | nil =>
          intro done q hd hL ho
          simp only [includeLoop, afterLoop, Option.some.injEq] at ho
          subst ho
          rw [List.append_nil] at hd
          rw [← hd] at hL
          exact hfin p parent path doc q hres hL
        | cons file rest ihl =>
          intro done q hd hL ho
          rw [includeLoop_cons_eq] at ho
          cases hc : AddFile E fuel q path (E.Join (E.Dir path) file) with
          | none => simp [hc, afterLoop] at ho
          | some o1 =>
            cases o1 with
            | exit c q1 =>
              simp only [hc, afterLoop, Option.some.injEq] at ho
              subst ho
              exact hexit p parent path doc done file rest q _ hres hd hL rfl ⟨fuel, hc⟩
                (ih _ _ _ _ hc)
            | panic q1 =>
              simp only [hc, afterLoop, Option.some.injEq] at ho
              subst ho
              exact hexit p parent path doc done file rest q _ hres hd hL rfl ⟨fuel, hc⟩
                (ih _ _ _ _ hc)
            | ret r q1 =>
              have hr := AddFile_ret_none E _ _ _ _ _ _ hc
              subst hr
              simp only [hc] at ho
              refine ihl (done ++ [file]) q1 (by simp [hd]) ?_ ho
              exact hstep p parent path doc done file rest q q1 hres hd hL ⟨fuel, hc⟩
                (ih _ _ _ _ hc)
      exact key doc.Includes [] (p.loaded parent path) rfl (hstart p parent path doc hres) h
    · rw [AddFile_of_null E fuel p parent path hn] at h
      simp only [Option.some.injEq] at h
      subst h
      exact hnull p parent path hn

theorem Steps.addVars (E : Env) (vars : GoMap) (q : Proc) :
    Steps E q (addVars q vars).2 := by
  unfold Gaeenv.addVars
  simp only
  generalize vars.entries = l
  induction l generalizing q with
  | nil => exact Steps.refl q
  | cons kv l ih =>
    rw [List.foldl_cons]
    exact Steps.trans _ _ _ (Steps.store q kv.1 kv.2) (ih _)

theorem Steps.of_loaded (E : Env) (p : Proc) (parent path : String)
    (hl : SyncMap.Load p.g.files path = none) (hs : E.stat path = none) :
    Steps E p (p.loaded parent path) :=
  Steps.trans _ _ _ (Steps.trans _ _ _ (Steps.enter p parent path)
    (Steps.register _ parent path hl hs)) (Steps.reading _ path)

theorem Steps.of_handleError (E : Env) (q : Proc) (fn : String) (err : GoError) :
    Steps E q (handleError q fn err).proc := by
  rw [handleError_eq]
  split <;> exact Steps.report q fn err

theorem Steps.failure (E : Env) (p q : Proc) (parent path : String) (err : GoError)
    (h : failure E p parent path = some (err, q)) : Steps E p q := by
  rcases failure_cases E p q parent path err h with
    ⟨o, _, rfl, _⟩ | ⟨e, _, _, rfl, _⟩ | ⟨op, e, hl, hs, _, rfl, _⟩ | ⟨c, m, hl, hs, _, _, rfl, _⟩
  · exact Steps.enter p parent path
  · exact Steps.enter p parent path
  · exact Steps.of_loaded E p parent path hl hs
  · exact Steps.of_loaded E p parent path hl hs

/-- Every state change of `AddFile` is a composition of the listed steps. -/
theorem AddFile_steps (E : Env) :
    ∀ (fuel : Nat) (p : Proc) (parent path : String) (o : Ctl (Option GoError)),
      AddFile E fuel p parent path = some o → Steps E p o.proc := by
  apply AddFile_rule E (fun _ _ p o => Steps E p o.proc) (fun _ _ _ p _ q => Steps E p q)
  · intro p parent path err q hf
    exact Steps.trans _ _ _ (Steps.failure E p q parent path err hf) (Steps.of_handleError E q _ err)
  · intro p parent path hn
    exact Steps.of_loaded E p parent path hn.1 hn.2.1
  · intro p parent path doc hres
    exact Steps.of_loaded E p parent path hres.1 hres.2.1
  · intro p parent path doc done file rest q q1 _ _ hL _ hR
    exact Steps.trans _ _ _ hL hR
  · intro p parent path doc done file rest q o1 _ _ hL _ _ hR
    exact Steps.trans _ _ _ hL hR
  · intro p parent path doc q _ hL
    exact Steps.trans _ _ _ hL (Steps.addVars E _ q)

/-! ## What no step changes, and what steps only extend -/

theorem Steps.flags (E : Env) (p q : Proc) (h : Steps E p q) :
    q.g.silent = p.g.silent ∧ q.g.force = p.g.force := by
  induction h with
  | refl p => exact ⟨rfl, rfl⟩
  | enter p parent path => exact ⟨rfl, rfl⟩
  | register p parent path hl hs => exact ⟨rfl, rfl⟩
  | reading p path => exact ⟨rfl, rfl⟩
  | report p fn err => exact ⟨rfl, rfl⟩
  | store p key value => exact ⟨rfl, rfl⟩
  | trans p q r _ _ ih1 ih2 => exact ⟨ih2.1.trans ih1.1, ih2.2.trans ih1.2⟩

theorem Steps.stdout (E : Env) (p q : Proc) (h : Steps E p q) : q.stdout = p.stdout := by
  induction h with
  | refl p => rfl
  | enter p parent path => rfl
  | register p parent path hl hs => rfl
  | reading p path => rfl
  | report p fn err => rfl
  | store p key value => rfl
  | trans p q r _ _ ih1 ih2 => exact ih2.trans ih1

theorem Steps.files_mono (E : Env) (p q : Proc) (h : Steps E p q) :
    ∀ x o, SyncMap.Load p.g.files x = some o → SyncMap.Load q.g.files x = some o := by
  induction h with
  | refl p => exact fun _ _ h => h
  | enter p parent path => exact fun _ _ h => h
  | register p parent path hl hs =>
    intro x o hx
    have hne : x ≠ path := by
      rintro rfl
      rw [hl] at hx
      exact absurd hx (by simp)
    simpa [Proc.register, SyncMap.Load_Store_of_ne _ _ _ _ hne] using hx
  | reading p path => exact fun _ _ h => h
  | report p fn err => exact fun _ _ h => h
  | store p key value => exact fun _ _ h => h
  | trans p q r _ _ ih1 ih2 => exact fun x o h => ih2 x o (ih1 x o h)

theorem Steps.files_exist (E : Env) (p q : Proc) (h : Steps E p q) :
    ∀ x, SyncMap.Load q.g.files x ≠ none →
      SyncMap.Load p.g.files x ≠ none ∨ E.stat x = none := by
  induction h with
  | refl p => exact fun _ h => Or.inl h
  | enter p parent path => exact fun _ h => Or.inl h
  | register p parent path hl hs =>
    intro x hx
    by_cases hxp : x = path
    · subst hxp
      exact Or.inr hs
    · left
      simpa [Proc.register, SyncMap.Load_Store_of_ne _ _ _ _ hxp] using hx
  | reading p path => exact fun _ h => Or.inl h
  | report p fn err => exact fun _ h => Or.inl h
  | store p key value => exact fun _ h => Or.inl h
  | trans p q r _ _ ih1 ih2 =>
    intro x hx
    rcases ih2 x hx with h | h
    · exact ih1 x h
    · exact Or.inr h

theorem replay_append (m : SyncMap) (w1 w2 : List (String × String)) :
    replay m (w1 ++ w2) = replay (replay m w1) w2 := by
  simp [replay, List.foldl_append]

theorem Steps.writes (E : Env) (p q : Proc) (h : Steps E p q) :
    ∃ w, q.writes = p.writes ++ w ∧ q.g.vars = replay p.g.vars w := by
  induction h with
  | refl p => exact ⟨[], by simp, rfl⟩
  | enter p parent path => exact ⟨[], by simp [Proc.enter], rfl⟩
  | register p parent path hl hs => exact ⟨[], by simp [Proc.register], rfl⟩
  | reading p path => exact ⟨[], by simp [Proc.reading], rfl⟩
  | report p fn err => exact ⟨[], by simp [Proc.report], rfl⟩
  | store p key value => exact ⟨[(key, value)], rfl, rfl⟩
  | trans p q r _ _ ih1 ih2 =>
    obtain ⟨w1, h1, h1v⟩ := ih1
    obtain ⟨w2, h2, h2v⟩ := ih2
    exact ⟨w1 ++ w2, by rw [h2, h1, List.append_assoc], by rw [h2v, h1v, replay_append]⟩

theorem Steps.calls (E : Env) (p q : Proc) (h : Steps E p q) :
    ∃ cs, q.calls = p.calls ++ cs := by
  induction h with
  | refl p => exact ⟨[], by simp⟩
  | enter p parent path => exact ⟨[(parent, path)], rfl⟩
  | register p parent path hl hs => exact ⟨[], by simp [Proc.register]⟩
  | reading p path => exact ⟨[], by simp [Proc.reading]⟩
  | report p fn err => exact ⟨[], by simp [Proc.report]⟩
  | store p key value => exact ⟨[], by simp [storeVar]⟩
  | trans p q r _ _ ih1 ih2 =>
    obtain ⟨c1, h1⟩ := ih1
    obtain ⟨c2, h2⟩ := ih2
    exact ⟨c1 ++ c2, by rw [h2, h1, List.append_assoc]⟩

theorem lastWrite_append (w1 w2 : List (String × String)) (k : String) :
    lastWrite (w1 ++ w2) k = (lastWrite w2 k).orElse (fun _ => lastWrite w1 k) := by
  induction w1 with
  | nil => cases h : lastWrite w2 k <;> simp [lastWrite, h]
  | cons a w1 ih =>
    obtain ⟨k0, v0⟩ := a
    have e : lastWrite ((k0, v0) :: w1 ++ w2) k =
        match lastWrite (w1 ++ w2) k with
        | some v1 => some v1
        | none => if k0 = k then some v0 else none := rfl
    have e1 : lastWrite ((k0, v0) :: w1) k =
        match lastWrite w1 k with
        | some v1 => some v1
        | none => if k0 = k then some v0 else none := rfl
    rw [e, e1, ih]
    cases h2 : lastWrite w2 k <;> simp

theorem Load_replay (w : List (String × String)) (m : SyncMap) (k : String) :
    SyncMap.Load (replay m w) k = (lastWrite w k).orElse (fun _ => SyncMap.Load m k) := by
  induction w generalizing m with
  | nil => simp [replay, lastWrite]
  | cons a w ih =>
    obtain ⟨k0, v0⟩ := a
    have : replay m ((k0, v0) :: w) = replay (SyncMap.Store m k0 v0) w := rfl
    rw [this, ih, SyncMap.Load_Store]
    simp only [lastWrite]
    cases h2 : lastWrite w k with
    | some v => simp
    | none =>
      by_cases hk : k = k0
      · subst hk; simp
      · simp [hk, Ne.symm hk]

theorem lastWrite_eq_none_iff (w : List (String × String)) (k : String) :
    lastWrite w k = none ↔ k ∉ keysOf w := by
  induction w with
  | nil => simp [lastWrite, keysOf]
  | cons a w ih =>
    obtain ⟨k0, v0⟩ := a
    simp only [lastWrite, keysOf, List.map_cons, List.mem_cons, not_or]
    cases h2 : lastWrite w k with
    | some v =>
      have : ¬ (k ∉ keysOf w) := fun hn => by rw [ih.2 hn] at h2; simp at h2
      simp only [keysOf, not_not] at this
      simp [this]
    | none =>
      have := ih.1 h2
      simp only [keysOf] at this
      by_cases hk : k0 = k
      · simp [hk]
      · simp [hk, this, Ne.symm hk]

theorem lastWrite_mem (w : List (String × String)) (k v : String)
    (h : lastWrite w k = some v) : (k, v) ∈ w := by
  induction w with
  | nil => simp [lastWrite] at h
  | cons a w ih =>
    obtain ⟨k0, v0⟩ := a
    simp only [lastWrite] at h
    cases h2 : lastWrite w k with
    | some v1 =>
      rw [h2] at h
      simp only [Option.some.injEq] at h
      subst h
      exact List.mem_cons_of_mem _ (ih h2)
    | none =>
      rw [h2] at h
      by_cases hk : k0 = k
      · simp [hk] at h
        subst hk h
        exact List.mem_cons_self _ _
      · simp [hk] at h

/-! ## Termination -/

theorem filter_length_le_of_imp (l : List String) (P Q : String → Bool)
    (h : ∀ a, Q a = true → P a = true) : (l.filter Q).length ≤ (l.filter P).length := by
  induction l with
  | nil => simp
  | cons a l ih =>
    cases hq : Q a
    · cases hp : P a
      · simpa [List.filter, hq, hp] using ih
      · simp only [List.filter, hq, hp, List.length_cons]
        omega
    · have hp := h a hq
      simpa [List.filter, hq, hp] using ih

theorem filter_length_lt_of_imp (l : List String) (P Q : String → Bool)
    (h : ∀ a, Q a = true → P a = true) (a0 : String) (hmem : a0 ∈ l) (hp0 : P a0 = true)
    (hq0 : Q a0 = false) : (l.filter Q).length < (l.filter P).length := by
  induction l with
  | nil => simp at hmem
  | cons a l ih =>
    rcases List.mem_cons.1 hmem with rfl | hin
    · have := filter_length_le_of_imp l P Q h
      simp only [List.filter, hq0, hp0, List.length_cons]
      omega
    · have := ih hin
      cases hq : Q a
      · cases hp : P a
        · simpa [List.filter, hq, hp] using this
        · simp only [List.filter, hq, hp, List.length_cons]
          omega
      · have hp := h a hq
        simpa [List.filter, hq, hp] using this

theorem Steps.unregistered_le (E : Env) (L : List String) (p q : Proc) (h : Steps E p q) :
    unregistered L q ≤ unregistered L p := by
  apply filter_length_le_of_imp
  intro a ha
  simp only [decide_eq_true_eq] at ha ⊢
  cases hp : SyncMap.Load p.g.files a with
  | none => rfl
  | some o =>
    rw [Steps.files_mono E p q h a o hp] at ha
    simp at ha

theorem loaded_files (p : Proc) (parent path : String) :
    (p.loaded parent path).g.files = SyncMap.Store p.g.files path parent := rfl

theorem unregistered_loaded_lt (E : Env) (L : List String) (p : Proc) (parent path : String)
    (hl : SyncMap.Load p.g.files path = none) (hs : E.stat path = none) (hmem : path ∈ L) :
    unregistered L (p.loaded parent path) < unregistered L p := by
  apply filter_length_lt_of_imp _ _ _ _ path hmem
  · simpa using hl
  · simp [loaded_files, SyncMap.Load_Store_self]
  · intro a ha
    simp only [decide_eq_true_eq] at ha ⊢
    cases hp : SyncMap.Load p.g.files a with
    | none => rfl
    | some o =>
      rw [Steps.files_mono E p _ (Steps.of_loaded E p parent path hl hs) a o hp] at ha
      simp at ha

/-- Fuel above the number of unregistered entries of a list of all existing
paths is enough for `AddFile` to end (by returning, exiting or panicking). -/
theorem AddFile_total (E : Env) (L : List String) (hL : ∀ x, E.stat x = none → x ∈ L) :
    ∀ (fuel : Nat) (p : Proc) (parent path : String), unregistered L p < fuel →
      ∃ o, AddFile E fuel p parent path = some o := by
  intro fuel
  induction fuel with
  | zero => intro p parent path h; omega
  | succ fuel ih =>
    intro p parent path hm
    rcases failure_of_not_resolves E p parent path with ⟨err, q0, hf⟩ | ⟨doc, hres⟩ | hn
    · exact ⟨_, AddFile_of_failure E fuel p q0 parent path err hf⟩
    rotate_left
    · exact ⟨_, AddFile_of_null E fuel p parent path hn⟩
    · rw [AddFile_of_resolves E fuel p parent path doc hres]
      have hlt := unregistered_loaded_lt E L p parent path hres.1 hres.2.1 (hL _ hres.2.1)
      have key : ∀ (rest : List String) (q : Proc), unregistered L q < fuel →
          ∃ o, afterLoop doc (includeLoop E (AddFile E fuel) path (E.Dir path) rest q)
            = some o := by
        intro rest
        induction rest with
        | nil => intro q _; exact ⟨_, rfl⟩
        | cons file rest ihl =>
          intro q hq
          rw [includeLoop_cons_eq]
          obtain ⟨o1, ho1⟩ := ih q path (E.Join (E.Dir path) file) hq
          cases o1 with
          | exit c q1 => exact ⟨_, by simp only [ho1]; rfl⟩
          | panic q1 => exact ⟨_, by simp only [ho1]; rfl⟩
          | ret r q1 =>
            have hle := Steps.unregistered_le E L q q1 (AddFile_steps E _ _ _ _ _ ho1)
            simp only [ho1]
            exact ihl q1 (by omega)
      exact key doc.Includes _ (by omega)

theorem unregistered_le_length (L : List String) (p : Proc) : unregistered L p ≤ L.length :=
  List.length_filter_le _ _

/-! ## Merging the variables of a file -/

theorem addVars_steps_vars (q : Proc) (l : List (String × String)) :
    (l.foldl (fun q kv => storeVar q kv.1 kv.2) q).g.vars = replay q.g.vars l ∧
    (l.foldl (fun q kv => storeVar q kv.1 kv.2) q).writes = q.writes ++ l := by
  induction l generalizing q with
  | nil => simp [replay]
  | cons kv l ih =>
    rw [List.foldl_cons]
    obtain ⟨h1, h2⟩ := ih (storeVar q kv.1 kv.2)
    refine ⟨by rw [h1]; rfl, ?_⟩
    rw [h2]
    simp [storeVar]

theorem addVars_vars (q : Proc) (m : GoMap) :
    (addVars q m).2.g.vars = replay q.g.vars m.entries :=
  (addVars_steps_vars q m.entries).1

theorem addVars_writes (q : Proc) (m : GoMap) :
    (addVars q m).2.writes = q.writes ++ m.entries :=
  (addVars_steps_vars q m.entries).2

theorem lastWrite_of_mem_nodup (l : List (String × String)) (hn : (l.map Prod.fst).Nodup)
    (k v : String) (h : (k, v) ∈ l) : lastWrite l k = some v := by
  induction l with
  | nil => simp at h
  | cons a l ih =>
    obtain ⟨k0, v0⟩ := a
    simp only [List.map_cons, List.nodup_cons] at hn
    rcases List.mem_cons.1 h with heq | hin
    · simp only [Prod.mk.injEq] at heq
      obtain ⟨rfl, rfl⟩ := heq
      have : lastWrite l k = none := (lastWrite_eq_none_iff l k).2 hn.1
      simp [lastWrite, this]
    · simp [lastWrite, ih hn.2 hin]

theorem GoMap.get_eq_some_iff (m : GoMap) (k v : String) :
    m.get k = some v ↔ (k, v) ∈ m.entries := by
  obtain ⟨l, hn⟩ := m
  simp only [GoMap.get]
  induction l with
  | nil => simp
  | cons a l ih =>
    obtain ⟨k0, v0⟩ := a
    simp only [List.map_cons, List.nodup_cons] at hn
    by_cases hk : k0 = k
    · subst hk
      have hnot : (k0, v) ∉ l := fun hin => hn.1 (List.mem_map.2 ⟨(k0, v), hin, rfl⟩)
      simp [List.find?, hnot, eq_comm]
    · have := ih hn.2
      simp only [List.find?, hk, decide_False, this, List.mem_cons, Prod.mk.injEq]
      constructor
      · exact fun h => Or.inr h
      · rintro (⟨h1, _⟩ | h)
        · exact absurd h1.symm hk
        · exact h

theorem GoMap.get_eq_none_iff (m : GoMap) (k : String) :
    m.get k = none ↔ k ∉ keysOf m.entries := by
  simp only [GoMap.get, keysOf, Option.map_eq_none', List.find?_eq_none, decide_eq_true_eq,
    List.mem_map, not_exists, not_and]

theorem Load_addVars_of_get (q : Proc) (m : GoMap) (k v : String) (h : m.get k = some v) :
    SyncMap.Load (addVars q m).2.g.vars k = some v := by
  rw [addVars_vars, Load_replay,
    lastWrite_of_mem_nodup m.entries m.nodup k v ((GoMap.get_eq_some_iff m k v).1 h)]
  rfl

theorem Load_addVars_of_get_none (q : Proc) (m : GoMap) (k : String) (h : m.get k = none) :
    SyncMap.Load (addVars q m).2.g.vars k = SyncMap.Load q.g.vars k := by
  rw [addVars_vars, Load_replay,
    (lastWrite_eq_none_iff m.entries k).2 ((GoMap.get_eq_none_iff m k).1 h)]
  rfl

/-- What a returning `AddFile` call did when its file resolved: the loop ran to
its end in some state, and `addVars` was applied to that state. -/
theorem AddFile_ret_of_resolves (E : Env) (fuel : Nat) (p q : Proc) (parent path : String)
    (doc : appYaml) (r : Option GoError) (hres : Resolves E p path doc)
    (h : AddFile E fuel p parent path = some (.ret r q)) :
    ∃ n q1, fuel = n + 1 ∧ r = none ∧
      includeLoop E (AddFile E n) path (E.Dir path) doc.Includes (p.loaded parent path)
        = some (.ret .done q1) ∧
      q = (addVars q1 doc.Env_variables).2 := by
  cases fuel with
  | zero => simp [AddFile] at h
  | succ n =>
    have hr := AddFile_ret_none E _ _ _ _ _ _ h
    subst hr
    rw [AddFile_of_resolves E n p parent path doc hres] at h
    cases hl : includeLoop E (AddFile E n) path (E.Dir path) doc.Includes
        (p.loaded parent path) with
    | none => simp [hl, afterLoop] at h
    | some lo =>
      cases lo with
      | exit c q2 => simp [hl, afterLoop] at h
      | panic q2 => simp [hl, afterLoop] at h
      | ret le q2 =>
        cases le with
        | done =>
          simp only [hl, afterLoop, Option.some.injEq, Ctl.ret.injEq, true_and] at h
          exact ⟨n, q2, rfl, rfl, hl, h.symm⟩
        | returned r2 =>
          exact absurd hl (includeLoop_not_returned E _ (AddFile_ret_none E n) _ _ _ _ _ _)

/-- With `force` set, `AddFile` never ends the process through `os.Exit`. -/
theorem AddFile_force_no_exit (E : Env) :
    ∀ (fuel : Nat) (p : Proc) (parent path : String) (o : Ctl (Option GoError)),
      AddFile E fuel p parent path = some o → p.g.force = true → ∀ c q, o ≠ .exit c q := by
  apply AddFile_rule E (fun _ _ p o => p.g.force = true → ∀ c q, o ≠ .exit c q)
    (fun _ _ _ p _ q => p.g.force = true → q.g.force = true)
  · intro p parent path err q hf hforce c q1
    have := (Steps.flags E p q (Steps.failure E p q parent path err hf)).2
    rw [handleError_eq, this, hforce]
    simp
  · intro p parent path _ _ c q
    simp
  · intro p parent path doc _ hforce
    exact hforce
  · intro p parent path doc done file rest q q1 _ _ hL ⟨n, hn⟩ _ hforce
    rw [(Steps.flags E q q1 (AddFile_steps E _ _ _ _ _ hn)).2]
    exact hL hforce
  · intro p parent path doc done file rest q o1 _ _ hL _ _ hR hforce
    exact hR (hL hforce)
  · intro p parent path doc q _ _ _ c q1
    simp

/-! ## C1: a file's own variables override those of its includes -/

/-- C1. Parent overrides child.  For every environment, state, origin and path
`P`: when the call `AddFile(origin, P)` registers, reads and decodes `P`, then in
the state in which the call returns the store maps every key of the document's
own `env_variables` to the document's own value, whatever the includes wrote.
With fuel above the number of existing paths the call does end.  For the root
defining `A=1` that includes a child defining `A=2` and `B=3`, the run ends with
exit code 0 and the store is `A ↦ 1, B ↦ 3`, for every setting of the two flags
and every order of `Range`. -/
theorem C1_parent_overrides_child :
    (∀ (E : Env) (fuel : Nat) (p : Proc) (origin P : String) (doc : appYaml),
      Resolves E p P doc →
      (∀ (r : Option GoError) (q : Proc), AddFile E fuel p origin P = some (.ret r q) →
        ∀ k v, doc.Env_variables.get k = some v → SyncMap.Load q.g.vars k = some v) ∧
      (∀ L : List String, (∀ x, E.stat x = none → x ∈ L) → L.length < fuel →
        ∃ o, AddFile E fuel p origin P = some o)) ∧
    (∀ (order : List (String × String) → List (String × String)) (silent force : Bool),
      (run parentChildEnv order 3 silent force "app.yaml").map (fun r => (r.1, r.2.g.vars))
        = some (0, [("A", "1"), ("B", "3")])) := by
  refine ⟨?_, fun order silent force => by cases silent <;> cases force <;> rfl⟩
  intro E fuel p origin P doc hres
  refine ⟨?_, ?_⟩
  · intro r q h k v hget
    obtain ⟨n, q1, _, _, _, rfl⟩ := AddFile_ret_of_resolves E fuel p q origin P doc r hres h
    exact Load_addVars_of_get q1 doc.Env_variables k v hget
  · intro L hL hfuel
    exact AddFile_total E L hL fuel p origin P
      (lt_of_le_of_lt (unregistered_le_length L p) hfuel)

/-- The general statement of C1 at the root of the parent and child example. -/
theorem C1_parent_overrides_child_witness :
    ∃ q, AddFile parentChildEnv 3 (Proc.start false false) "" "app.yaml" = some (.ret none q) ∧
      SyncMap.Load q.g.vars "A" = some "1" := by
  obtain ⟨q, h⟩ := AddFile_ret_of_isRet parentChildEnv 3 (Proc.start false false) ""
    "app.yaml" (by decide)
  have hres : Resolves parentChildEnv (Proc.start false false) "app.yaml" parentDoc :=
    ⟨by decide, by decide, "env_variables:\n  A: \"1\"\nincludes:\n- child.yaml\n", rfl, rfl⟩
  exact ⟨q, h, (C1_parent_overrides_child.1 parentChildEnv 3 _ "" "app.yaml" _ hres).1 none q h
    "A" "1" (by decide)⟩

/-! ## C8: the export format -/

theorem AddFile_start_no_includes (E : Env) (fuel : Nat) (silent force : Bool) (root : String)
    (doc : appYaml) (hs : E.stat root = none) (hp : Parses E root doc)
    (hi : doc.Includes = []) :
    AddFile E (fuel + 1) (Proc.start silent force) "" root =
      some (.ret none (addVars ((Proc.start silent force).loaded "" root) doc.Env_variables).2) := by
  have hres : Resolves E (Proc.start silent force) root doc := ⟨rfl, hs, hp⟩
  rw [AddFile_of_resolves E fuel _ "" root doc hres, hi]
  rfl

theorem linesOf_append_line (l rest : List Char) (h : '\n' ∉ l) :
    linesOf (l ++ '\n' :: rest) = (l :: (linesOf rest).1, (linesOf rest).2) := by
  induction l with
  | nil => simp [linesOf]
  | cons c l ih =>
    have hc : c ≠ '\n' := fun hc => h (by simp [hc])
    have hl : '\n' ∉ l := fun hl => h (List.mem_cons_of_mem _ hl)
    rw [List.cons_append]
    conv_lhs => unfold linesOf
    rw [if_neg hc, ih hl]

theorem exportLine_data (kv : String × String) :
    (exportLine kv).data = (exportText kv).data ++ ['\n'] := by
  simp [exportLine, exportText, String.data_append]

theorem exportText_noNewline (kv : String × String) (h1 : NoNewline kv.1)
    (h2 : NoNewline kv.2) : '\n' ∉ (exportText kv).data := by
  unfold NoNewline at h1 h2
  simp only [exportText, String.data_append, List.mem_append, not_or]
  exact ⟨⟨⟨⟨by decide, h1⟩, by decide⟩, h2⟩, by decide⟩

/-- When no key and no value holds a newline, the text written for a list of
entries consists of one line per entry, the text `export NAME="VALUE"`. -/
theorem linesOf_exportLines (l : List (String × String))
    (h : ∀ kv ∈ l, NoNewline kv.1 ∧ NoNewline kv.2) :
    linesOf (textOf (l.map exportLine)) = (l.map (fun kv => (exportText kv).data), []) := by
  induction l with
  | nil => rfl
  | cons kv l ih =>
    have h1 := h kv (List.mem_cons_self _ _)
    have ih1 := ih (fun x hx => h x (List.mem_cons_of_mem _ hx))
    simp only [List.map_cons, textOf, exportLine_data, List.append_assoc, List.singleton_append]
    rw [linesOf_append_line _ _ (exportText_noNewline kv h1.1 h1.2), ih1]

/-- C8, the claim as stated fails: the root defines `Q` with a value of two
lines; the store has one entry, `printVars` makes one write, and standard
output has two lines, `export Q="a` and `b"`, neither of the form
`export NAME="VALUE"` for the entry. -/
theorem C8_multiline_value :
    (run multilineEnv (fun l => l) 1 false false "app.yaml").map
        (fun r => (r.1, r.2.g.vars, r.2.stdout, linesOf (textOf r.2.stdout)))
      = some (0, [("Q", "a\nb")], ["export Q=\"a\nb\"\n"],
          (["export Q=\"a".data, "b\"".data], [])) := by
  rfl

/-- C8 as amended.  `printVars` appends to standard output one write per entry
that `Range` visits, the text `export NAME="VALUE"` and a newline with the key
as NAME and the value as VALUE, both copied as they are, and changes nothing
else; when `Range` visits every entry once, the writes are those of the
entries of the store, up to their order.  When no key and no value of the store
holds a newline, the text written consists of exactly one line per entry
visited, each the text `export NAME="VALUE"` of the entry, and of nothing after
the last line.  For a root that loads, has no includes and has the variables
`A ↦ 1`, the run exits with code 0 and its standard output is exactly the line
`export A="1"`. -/
theorem C8_export_format :
    (∀ (order : List (String × String) → List (String × String)) (p : Proc),
      (order p.g.vars).Perm p.g.vars →
      (printVars order p).stdout = p.stdout ++ (order p.g.vars).map exportLine ∧
      (printVars order p).g = p.g ∧ (printVars order p).stderr = p.stderr ∧
      ((order p.g.vars).map exportLine).Perm (p.g.vars.map exportLine) ∧
      ((∀ kv ∈ p.g.vars, NoNewline kv.1 ∧ NoNewline kv.2) →
        linesOf (textOf ((order p.g.vars).map exportLine))
          = ((order p.g.vars).map (fun kv => (exportText kv).data), []) ∧
        ((order p.g.vars).map (fun kv => (exportText kv).data)).Perm
          (p.g.vars.map (fun kv => (exportText kv).data)) ∧
        (linesOf (textOf ((order p.g.vars).map exportLine))).1.length = p.g.vars.length)) ∧
    (∀ name value : String,
      exportText (name, value) = "export " ++ name ++ "=\"" ++ value ++ "\"" ∧
      exportLine (name, value) = "export " ++ name ++ "=\"" ++ value ++ "\"\n") ∧
    (∀ (E : Env) (order : List (String × String) → List (String × String)) (fuel : Nat)
        (silent force : Bool) (root : String) (doc : appYaml),
      (∀ l, (order l).Perm l) → E.stat root = none → Parses E root doc →
      doc.Includes = [] → doc.Env_variables.entries = [("A", "1")] →
      ∃ q, run E order (fuel + 1) silent force root = some (0, q) ∧
        q.stdout = ["export A=\"1\"\n"] ∧
        linesOf (textOf q.stdout) = (["export A=\"1\"".data], [])) := by
  refine ⟨?_, fun _ _ => ⟨rfl, rfl⟩, ?_⟩
  · intro order p hperm
    refine ⟨rfl, rfl, rfl, hperm.map _, fun hno => ?_⟩
    have hno1 : ∀ kv ∈ order p.g.vars, NoNewline kv.1 ∧ NoNewline kv.2 :=
      fun kv hkv => hno kv (hperm.mem_iff.1 hkv)
    have hl := linesOf_exportLines (order p.g.vars) hno1
    refine ⟨hl, hperm.map _, ?_⟩
    rw [hl]
    simp only [List.length_map]
    exact hperm.length_eq
  · intro E order fuel silent force root doc hperm hs hp hi he
    have h := AddFile_start_no_includes E fuel silent force root doc hs hp hi
    refine ⟨printVars order
      (addVars ((Proc.start silent force).loaded "" root) doc.Env_variables).2,
      by simp only [run, h], ?_⟩
    have hv : (addVars ((Proc.start silent force).loaded "" root) doc.Env_variables).2.g.vars
        = [("A", "1")] := by
      rw [addVars_vars, he]
      rfl
    have hout : (addVars ((Proc.start silent force).loaded "" root) doc.Env_variables).2.stdout
        = [] := Steps.stdout E (Proc.start silent force) _
          (Steps.trans _ _ _ (Steps.of_loaded E _ "" root rfl hs) (Steps.addVars E _ _))
    have h1 := List.perm_singleton.1 (hperm [("A", "1")])
    have h2 : (printVars order
        (addVars ((Proc.start silent force).loaded "" root) doc.Env_variables).2).stdout
        = ["export A=\"1\"\n"] := by
      simp only [printVars, hv, hout, h1, List.nil_append, List.map_cons, List.map_nil]
      rfl
    refine ⟨h2, ?_⟩
    rw [h2]
    decide

/-- The amended C8 on the store `A ↦ 1, B ↦ 3` visited in reverse order, and
the run of the one-file example. -/
theorem C8_export_format_witness :
    linesOf (textOf (([("A", "1"), ("B", "3")] : List (String × String)).reverse.map exportLine))
      = (["export B=\"3\"".data, "export A=\"1\"".data], []) ∧
    ∃ q, run singleEnv (fun l => l) 1 false false "app.yaml" = some (0, q) ∧
      q.stdout = ["export A=\"1\"\n"] ∧
      linesOf (textOf q.stdout) = (["export A=\"1\"".data], []) :=
  ⟨((C8_export_format.1 List.reverse (Proc.withStore [("A", "1"), ("B", "3")])
      (List.reverse_perm _)).2.2.2.2
      (by
        intro kv hkv
        simp only [Proc.withStore, List.mem_cons, List.mem_singleton, List.not_mem_nil,
          or_false] at hkv
        rcases hkv with rfl | rfl <;> exact ⟨by decide, by decide⟩)).1,
    C8_export_format.2.2 singleEnv (fun l => l) 0 false false "app.yaml" singleDoc
      (fun l => List.Perm.refl l) (by decide) ⟨"env_variables:\n  A: \"1\"\n", rfl, rfl⟩ rfl rfl⟩

/-! ## C9: what the errors carry -/

theorem Mentions_duplicateError (path parent oldParent : String) :
    Mentions (duplicateError path parent oldParent) path ∧
    Mentions (duplicateError path parent oldParent) parent ∧
    Mentions (duplicateError path parent oldParent) oldParent := by
  refine ⟨⟨"Duplicate file: ".data, " found in ".data ++ parent.data ++
      ", was already loaded in ".data ++ oldParent.data, ?_⟩,
    ⟨"Duplicate file: ".data ++ path.data ++ " found in ".data,
      ", was already loaded in ".data ++ oldParent.data, ?_⟩,
    ⟨"Duplicate file: ".data ++ path.data ++ " found in ".data ++ parent.data ++
      ", was already loaded in ".data, [], ?_⟩⟩ <;>
  simp [duplicateError, GoError.Error]

theorem Mentions_PathError (op path : String) (e : Errno) :
    Mentions (.PathError op path e) path :=
  ⟨op.data ++ " ".data, ": ".data ++ e.Error.data, by simp [GoError.Error]⟩

/-- C9, the claim as stated fails: the root `bad.yaml` exists, is read and is
malformed; the error handed to `handleError` is the error of the decoder, and
its text does not contain `bad.yaml`. -/
theorem C9_parse_error_lacks_path :
    (run badEnv (fun l => l) 1 false false "bad.yaml").map
        (fun r => (r.1, r.2.handled, r.2.stderr))
      = some (1, [.yamlError "yaml: line 1: did not find expected node content"],
          ["Error in AddFile, yaml: line 1: did not find expected node content\n"]) ∧
    failure badEnv (Proc.start false false) "" "bad.yaml"
      = some (.yamlError "yaml: line 1: did not find expected node content",
          (Proc.start false false).loaded "" "bad.yaml") ∧
    ¬ Mentions (.yamlError "yaml: line 1: did not find expected node content") "bad.yaml" := by
  refine ⟨by decide, by decide, by decide⟩

/-- C9 as amended.  When `AddFile(parent, path)` fails before its loop, the
error it hands to `handleError` is this: for a registered path, the duplicate
error, whose text contains the path, the including file and the origin recorded
first; for a path `os.Stat` reports as missing, the `*os.PathError` of
`os.Stat`, whose text contains the path; for a path `ioutil.ReadFile` fails on,
its `*os.PathError`, whose text contains the path; for a malformed content, the
error of the decoder, unchanged. -/
theorem C9_errors_carry_path (E : Env) (p q : Proc) (parent path : String) (err : GoError)
    (h : failure E p parent path = some (err, q)) :
    (∀ fuel, AddFile E (fuel + 1) p parent path = some (handleError q "AddFile" err) ∧
      (handleError q "AddFile" err).proc.handled = p.handled ++ [err]) ∧
    (∀ o, SyncMap.Load p.g.files path = some o →
      err = duplicateError path parent o ∧
      Mentions err path ∧ Mentions err parent ∧ Mentions err o) ∧
    (SyncMap.Load p.g.files path = none → E.stat path = some .ENOENT →
      err = .PathError "stat" path .ENOENT ∧ Mentions err path) ∧
    (SyncMap.Load p.g.files path = none → E.stat path = none →
      ∀ op e, E.readFile path = .error (op, e) →
        err = .PathError op path e ∧ Mentions err path) ∧
    (SyncMap.Load p.g.files path = none → E.stat path = none →
      ∀ content msg, E.readFile path = .ok content → E.unmarshal content = .error msg →
        err = .yamlError msg) := by
  have hc := failure_cases E p q parent path err h
  refine ⟨?_, ?_, ?_, ?_, ?_⟩
  · intro fuel
    refine ⟨AddFile_of_failure E fuel p q parent path err h, ?_⟩
    have hq : q.handled = p.handled := by
      rcases hc with ⟨o, _, rfl, _⟩ | ⟨e, _, _, rfl, _⟩ | ⟨op, e, _, _, _, rfl, _⟩ |
        ⟨c, m, _, _, _, _, rfl, _⟩ <;> rfl
    rw [handleError_eq]
    split <;> simp [Ctl.proc, Proc.report, hq]
  · intro o ho
    rcases hc with ⟨o1, h1, _, rfl⟩ | ⟨e, h1, _⟩ | ⟨op, e, h1, _⟩ | ⟨c, m, h1, _⟩
    · rw [ho] at h1
      simp only [Option.some.injEq] at h1
      subst h1
      exact ⟨rfl, Mentions_duplicateError path parent o⟩
    all_goals (rw [ho] at h1; simp at h1)
  · intro hl hs
    rcases hc with ⟨o1, h1, _⟩ | ⟨e, _, h1, _, rfl⟩ | ⟨op, e, _, h1, _⟩ | ⟨c, m, _, h1, _⟩
    · rw [hl] at h1; simp at h1
    · rw [hs] at h1
      simp only [Option.some.injEq] at h1
      subst h1
      exact ⟨rfl, Mentions_PathError _ _ _⟩
    all_goals (rw [hs] at h1; simp at h1)
  · intro hl hs op e hr
    rcases hc with ⟨o1, h1, _⟩ | ⟨e1, _, h1, _⟩ | ⟨op1, e1, _, _, h1, _, rfl⟩ |
      ⟨c, m, _, _, h1, _⟩
    · rw [hl] at h1; simp at h1
    · rw [hs] at h1; simp at h1
    · rw [hr] at h1
      simp only [Except.error.injEq, Prod.mk.injEq] at h1
      obtain ⟨rfl, rfl⟩ := h1
      exact ⟨rfl, Mentions_PathError _ _ _⟩
    · rw [hr] at h1; simp at h1
  · intro hl hs content msg hr hu
    rcases hc with ⟨o1, h1, _⟩ | ⟨e1, _, h1, _⟩ | ⟨op1, e1, _, _, h1, _⟩ |
      ⟨c, m, _, _, h1, h2, _, rfl⟩
    · rw [hl] at h1; simp at h1
    · rw [hs] at h1; simp at h1
    · rw [hr] at h1; simp at h1
    · rw [hr] at h1
      simp only [Except.ok.injEq] at h1
      subst h1
      rw [hu] at h2
      simp only [Except.error.injEq] at h2
      rw [h2]

/-- The amended C9 at a second reference to `x.yaml`, first included by
`app.yaml` and now by `c.yaml`. -/
theorem C9_errors_carry_path_witness :
    Mentions (duplicateError "x.yaml" "c.yaml" "app.yaml") "x.yaml" ∧
    Mentions (duplicateError "x.yaml" "c.yaml" "app.yaml") "c.yaml" ∧
    Mentions (duplicateError "x.yaml" "c.yaml" "app.yaml") "app.yaml" :=
  ((C9_errors_carry_path diamondEnv ((Proc.start false false).register "app.yaml" "x.yaml")
    (((Proc.start false false).register "app.yaml" "x.yaml").enter "c.yaml" "x.yaml")
    "c.yaml" "x.yaml" (duplicateError "x.yaml" "c.yaml" "app.yaml") (by decide)).2.1
      "app.yaml" (by decide)).2

/-! ## C3: a second reference to a registered file -/

theorem verifyFile_of_registered (E : Env) (p : Proc) (parent X o : String)
    (h : SyncMap.Load p.g.files X = some o) :
    verifyFile E p parent X = (some (duplicateError X parent o), p) := by
  unfold verifyFile
  rw [h]
  rfl

theorem verifyFile_duplicate_iff (E : Env) (p : Proc) (parent X : String) :
    (∃ o, (verifyFile E p parent X).1 = some (duplicateError X parent o)) ↔
      SyncMap.Load p.g.files X ≠ none := by
  constructor
  · rintro ⟨o, ho⟩ hl
    unfold verifyFile at ho
    rw [hl] at ho
    cases hs : E.stat X with
    | none => simp [os.Stat, hs] at ho
    | some e =>
      simp only [os.Stat, hs, Option.map_some'] at ho
      split at ho
      · simp [duplicateError] at ho
      · simp only [duplicateError, Option.some.injEq, GoError.errorString.injEq] at ho
        have := congrArg (fun s => s.data.head?) ho
        simp [String.data_append] at this
  · intro hl
    cases h : SyncMap.Load p.g.files X with
    | none => exact absurd h hl
    | some o => exact ⟨o, by rw [verifyFile_of_registered E p parent X o h]⟩

/-- C3. Duplicate inclusion.  In every state, `verifyFile(parent, X)` returns the
duplicate error exactly when `X` is registered, whoever refers to it.  For a
registered `X` with recorded origin `o`, the call `AddFile(parent, X)` hands
`handleError` the duplicate error, whose text contains `X` and `o`, and ends
with the store and the inclusion record as they were.  No call of `AddFile`
changes the origin recorded for a registered path, and a path that gets through
`verifyFile` was unregistered and is recorded with the parent of that call.
A file that includes itself, and a file reached through two different includes,
are both rejected at the second reference, naming the first origin, whatever
the order of `Range`. -/
theorem C3_duplicate_inclusion :
    (∀ (E : Env) (p : Proc) (parent X : String),
      ((∃ o, (verifyFile E p parent X).1 = some (duplicateError X parent o)) ↔
        SyncMap.Load p.g.files X ≠ none) ∧
      (∀ o, SyncMap.Load p.g.files X = some o →
        verifyFile E p parent X = (some (duplicateError X parent o), p) ∧
        Mentions (duplicateError X parent o) X ∧ Mentions (duplicateError X parent o) o ∧
        ∀ fuel, AddFile E (fuel + 1) p parent X
            = some (handleError (p.enter parent X) "AddFile" (duplicateError X parent o)) ∧
          (handleError (p.enter parent X) "AddFile" (duplicateError X parent o)).proc.g.vars
            = p.g.vars ∧
          (handleError (p.enter parent X) "AddFile" (duplicateError X parent o)).proc.g.files
            = p.g.files ∧
          (handleError (p.enter parent X) "AddFile" (duplicateError X parent o)).proc.handled
            = p.handled ++ [duplicateError X parent o])) ∧
    (∀ (E : Env) (fuel : Nat) (p : Proc) (parent path : String) (out : Ctl (Option GoError)),
      AddFile E fuel p parent path = some out →
      ∀ x o, SyncMap.Load p.g.files x = some o → SyncMap.Load out.proc.g.files x = some o) ∧
    (∀ (E : Env) (p q : Proc) (parent path : String),
      verifyFile E p parent path = (none, q) →
      SyncMap.Load p.g.files path = none ∧ SyncMap.Load q.g.files path = some parent) ∧
    (∀ (order : List (String × String) → List (String × String)) (silent : Bool),
      (run cycleEnv order 3 silent false "a.yaml").map
          (fun r => (r.1, r.2.handled, r.2.g.files, r.2.stdout))
        = some (1, [duplicateError "a.yaml" "a.yaml" ""], [("a.yaml", "")], [])) ∧
    (∀ (order : List (String × String) → List (String × String)) (silent : Bool),
      (run diamondEnv order 4 silent false "app.yaml").map
          (fun r => (r.1, r.2.handled, r.2.g.files, r.2.stdout))
        = some (1, [duplicateError "x.yaml" "c.yaml" "b.yaml"],
            [("app.yaml", ""), ("b.yaml", "app.yaml"), ("x.yaml", "b.yaml"),
             ("c.yaml", "app.yaml")], [])) := by
  refine ⟨?_, ?_, ?_, fun order silent => by cases silent <;> rfl,
    fun order silent => by cases silent <;> rfl⟩
  · intro E p parent X
    refine ⟨verifyFile_duplicate_iff E p parent X, ?_⟩
    intro o ho
    have hm := Mentions_duplicateError X parent o
    refine ⟨verifyFile_of_registered E p parent X o ho, hm.1, hm.2.2, ?_⟩
    intro fuel
    have hf : failure E p parent X = some (duplicateError X parent o, p.enter parent X) := by
      unfold failure
      rw [verifyFile_of_registered E (p.enter parent X) parent X o ho]
    refine ⟨AddFile_of_failure E fuel p _ parent X _ hf, ?_⟩
    rw [handleError_eq]
    split <;> exact ⟨rfl, rfl, rfl⟩
  · intro E fuel p parent path out h
    exact Steps.files_mono E p out.proc (AddFile_steps E fuel p parent path out h)
  · intro E p q parent path h
    obtain ⟨hl, _, rfl⟩ := (verifyFile_none_iff E p q parent path).1 h
    exact ⟨hl, SyncMap.Load_Store_self _ _ _⟩

/-- The general statement of C3 at the second reference to `x.yaml` of the
diamond example. -/
theorem C3_duplicate_inclusion_witness :
    verifyFile diamondEnv ((Proc.start false false).register "b.yaml" "x.yaml") "c.yaml" "x.yaml"
      = (some (duplicateError "x.yaml" "c.yaml" "b.yaml"),
          (Proc.start false false).register "b.yaml" "x.yaml") :=
  ((C3_duplicate_inclusion.1 diamondEnv ((Proc.start false false).register "b.yaml" "x.yaml")
    "c.yaml" "x.yaml").2 "b.yaml" (by decide)).1

/-! ## C7: the flag `silent` -/

theorem addVars_eq (q : Proc) (m : GoMap) :
    (addVars q m).2 =
      { q with g := { q.g with vars := replay q.g.vars m.entries },
               writes := q.writes ++ m.entries } := by
  unfold addVars
  simp only
  generalize m.entries = l
  induction l generalizing q with
  | nil => simp [replay]
  | cons kv l ih =>
    rw [List.foldl_cons, ih]
    simp [storeVar, replay]

theorem failure_state (E : Env) (p q : Proc) (parent path : String) (err : GoError)
    (h : failure E p parent path = some (err, q)) :
    q = p.enter parent path ∨
      (q = p.loaded parent path ∧ SyncMap.Load p.g.files path = none ∧ E.stat path = none) := by
  rcases failure_cases E p q parent path err h with
    ⟨o, _, rfl, _⟩ | ⟨e, _, _, rfl, _⟩ | ⟨op, e, hl, hs, _, rfl, _⟩ | ⟨c, m, hl, hs, _, _, rfl, _⟩
  · exact Or.inl rfl
  · exact Or.inl rfl
  · exact Or.inr ⟨rfl, hl, hs⟩
  · exact Or.inr ⟨rfl, hl, hs⟩

theorem verifyFile_quiet (E : Env) (p : Proc) (parent path : String) :
    verifyFile E p.quiet parent path =
      ((verifyFile E p parent path).1, (verifyFile E p parent path).2.quiet) := by
  unfold verifyFile
  have hf : p.quiet.g.files = p.g.files := rfl
  rw [hf]
  cases SyncMap.Load p.g.files path with
  | some o => rfl
  | none =>
    simp only
    cases os.Stat E path with
    | none => rfl
    | some e =>
      simp only
      split <;> rfl

theorem failure_quiet (E : Env) (p : Proc) (parent path : String) :
    failure E p.quiet parent path =
      (failure E p parent path).map (fun eq => (eq.1, eq.2.quiet)) := by
  unfold failure
  have he : p.quiet.enter parent path = (p.enter parent path).quiet := rfl
  rw [he, verifyFile_quiet]
  cases hv : verifyFile E (p.enter parent path) parent path with
  | mk r q1 =>
    cases r with
    | some e => rfl
    | none =>
      simp only
      cases ioutil.ReadFile E path with
      | error e => rfl
      | ok content =>
        simp only
        cases yaml.Unmarshal E content with
        | error e => rfl
        | ok doc => rfl

theorem handleError_quiet (q : Proc) (fn : String) (err : GoError) :
    handleError q.quiet fn err = (handleError q fn err).quiet := by
  rw [handleError_eq, handleError_eq]
  have hf : q.quiet.g.force = q.g.force := rfl
  rw [hf]
  split <;> simp [Ctl.quiet, Proc.quiet, Proc.report]

theorem addVars_quiet (q : Proc) (m : GoMap) :
    (addVars q.quiet m).2 = (addVars q m).2.quiet := by
  rw [addVars_eq, addVars_eq]
  rfl

/-- Running `AddFile` from the quiet state gives the quiet outcome. -/
theorem AddFile_quiet (E : Env) :
    ∀ (fuel : Nat) (p : Proc) (parent path : String),
      AddFile E fuel p.quiet parent path = (AddFile E fuel p parent path).map Ctl.quiet := by
  intro fuel
  induction fuel with
  | zero => intro p parent path; rfl
  | succ fuel ih =>
    intro p parent path
    rcases failure_of_not_resolves E p parent path with ⟨err, q0, hf⟩ | ⟨doc, hres⟩ | hn
    · have hfq : failure E p.quiet parent path = some (err, q0.quiet) := by
        rw [failure_quiet, hf]
        rfl
      rw [AddFile_of_failure E fuel p q0 parent path err hf,
        AddFile_of_failure E fuel p.quiet q0.quiet parent path err hfq, handleError_quiet]
      rfl
    rotate_left
    · have hnq : Panics E p.quiet path := hn
      rw [AddFile_of_null E fuel p parent path hn, AddFile_of_null E fuel p.quiet parent path hnq]
      rfl
    · have hresq : Resolves E p.quiet path doc := hres
      rw [AddFile_of_resolves E fuel p parent path doc hres,
        AddFile_of_resolves E fuel p.quiet parent path doc hresq]
      have hl : p.quiet.loaded parent path = (p.loaded parent path).quiet := rfl
      rw [hl]
      generalize p.loaded parent path = q
      generalize doc.Includes = rest
      induction rest generalizing q with
      | nil =>
        simp only [includeLoop, afterLoop, Option.map_some', Ctl.quiet, addVars_quiet]
      | cons file rest ihl =>
        rw [includeLoop_cons_eq, includeLoop_cons_eq, ih]
        cases hc : AddFile E fuel q path (E.Join (E.Dir path) file) with
        | none => rfl
        | some o =>
          cases o with
          | exit c q1 => rfl
          | panic q1 => rfl
          | ret r q1 =>
            simp only [Option.map_some', Ctl.quiet]
            exact ihl q1

/-- C7, the claim as stated fails.  On the parent and child example the run
with `silent` set, in which `Range` visits `A` first, and the run without it,
in which `Range` visits `B` first, end with different standard outputs.  On a
root that holds a null document the run with `silent` set ends with the trace
of the runtime on standard error. -/
theorem C7_order_and_panic :
    (run parentChildEnv (fun l => l) 3 true false "app.yaml").map (fun r => (r.1, r.2.stdout))
      = some (0, ["export A=\"1\"\n", "export B=\"3\"\n"]) ∧
    (run parentChildEnv List.reverse 3 false false "app.yaml").map (fun r => (r.1, r.2.stdout))
      = some (0, ["export B=\"3\"\n", "export A=\"1\"\n"]) ∧
    (run nullRootEnv (fun l => l) 1 true false "app.yaml").map (fun r => (r.1, r.2.stderr))
      = some (2, ["panic: runtime error: invalid memory address or nil pointer dereference\n"]) :=
  ⟨rfl, rfl, rfl⟩

/-- C7 as amended.  Take the run with `silent` set and the run without it, on
the same environment, root and value of `force`, each with its own order of
`Range`, both orders visiting every entry once.  The runs end alike: with the
same exit code, the same store, the same inclusion record and the same logs of
errors, calls, reads and writes.  Their standard outputs hold the same writes,
in the same order when `Range` visits the final store in the same order.  The
run with `silent` set has written nothing to standard error unless it ended
with exit code 2, the panic of the runtime. -/
theorem C7_silent_preserves_control_flow (E : Env)
    (order1 order2 : List (String × String) → List (String × String)) (fuel : Nat)
    (force : Bool) (root : String)
    (h1 : ∀ l, (order1 l).Perm l) (h2 : ∀ l, (order2 l).Perm l) :
    (∀ code q, run E order1 fuel true force root = some (code, q) →
      ∃ q1, run E order2 fuel false force root = some (code, q1) ∧
        q.g.vars = q1.g.vars ∧ q.g.files = q1.g.files ∧ q.g.force = q1.g.force ∧
        q.stdout.Perm q1.stdout ∧
        (order1 q.g.vars = order2 q.g.vars → q.stdout = q1.stdout) ∧
        q.handled = q1.handled ∧ q.calls = q1.calls ∧ q.reads = q1.reads ∧
        q.writes = q1.writes ∧ (code ≠ 2 → q.stderr = [])) ∧
    (∀ code q1, run E order2 fuel false force root = some (code, q1) →
      ∃ q, run E order1 fuel true force root = some (code, q)) := by
  have hs : Proc.start true force = (Proc.start false force).quiet := rfl
  constructor
  · intro code q h
    unfold run at h ⊢
    rw [hs, AddFile_quiet] at h
    cases hc : AddFile E fuel (Proc.start false force) "" root with
    | none => simp [hc] at h
    | some o =>
      have hst := Steps.stdout E _ _ (AddFile_steps E fuel _ "" root o hc)
      cases o with
      | exit c q1 =>
        simp only [hc, Option.map_some', Ctl.quiet, Option.some.injEq, Prod.mk.injEq] at h
        obtain ⟨rfl, rfl⟩ := h
        exact ⟨q1, rfl, rfl, rfl, rfl, List.Perm.refl _, fun _ => rfl, rfl, rfl, rfl, rfl,
          fun _ => rfl⟩
      | panic q1 =>
        simp only [hc, Option.map_some', Ctl.quiet, Option.some.injEq, Prod.mk.injEq] at h
        obtain ⟨rfl, rfl⟩ := h
        exact ⟨_, rfl, rfl, rfl, rfl, List.Perm.refl _, fun _ => rfl, rfl, rfl, rfl, rfl,
          fun hne => absurd rfl hne⟩
      | ret r q1 =>
        have := AddFile_ret_none E _ _ _ _ _ _ hc
        subst this
        simp only [hc, Option.map_some', Ctl.quiet, Option.some.injEq, Prod.mk.injEq] at h
        obtain ⟨rfl, rfl⟩ := h
        simp only [Ctl.proc] at hst
        refine ⟨_, rfl, rfl, rfl, rfl, ?_, ?_, rfl, rfl, rfl, rfl, fun _ => rfl⟩
        · have e1 : (printVars order1 q1.quiet).stdout
              = q1.stdout ++ (order1 q1.g.vars).map exportLine := rfl
          have e2 : (printVars order2 q1).stdout
              = q1.stdout ++ (order2 q1.g.vars).map exportLine := rfl
          rw [e1, e2]
          exact List.Perm.append_left _ (((h1 _).trans (h2 _).symm).map _)
        · intro he
          have e1 : (printVars order1 q1.quiet).stdout
              = q1.stdout ++ (order1 q1.g.vars).map exportLine := rfl
          have e2 : (printVars order2 q1).stdout
              = q1.stdout ++ (order2 q1.g.vars).map exportLine := rfl
          have he1 : order1 q1.g.vars = order2 q1.g.vars := he
          rw [e1, e2, he1]
  · intro code q1 h
    unfold run at h ⊢
    rw [hs, AddFile_quiet]
    cases hc : AddFile E fuel (Proc.start false force) "" root with
    | none => simp [hc] at h
    | some o =>
      cases o with
      | exit c q2 =>
        simp only [hc, Option.some.injEq, Prod.mk.injEq] at h
        obtain ⟨rfl, _⟩ := h
        exact ⟨_, rfl⟩
      | panic q2 =>
        simp only [hc, Option.some.injEq, Prod.mk.injEq] at h
        obtain ⟨rfl, _⟩ := h
        exact ⟨_, rfl⟩
      | ret r q2 =>
        have := AddFile_ret_none E _ _ _ _ _ _ hc
        subst this
        simp only [hc, Option.some.injEq, Prod.mk.injEq] at h
        obtain ⟨rfl, _⟩ := h
        exact ⟨_, rfl⟩

/-- The amended C7 on the parent and child example, with `Range` in store order
in the run with `silent` and in reverse order in the run without it. -/
theorem C7_silent_preserves_control_flow_witness :
    ∃ q q1, run parentChildEnv (fun l => l) 3 true false "app.yaml" = some (0, q) ∧
      run parentChildEnv List.reverse 3 false false "app.yaml" = some (0, q1) ∧
      q.g.vars = q1.g.vars ∧ q.stdout.Perm q1.stdout ∧ q.stderr = [] := by
  obtain ⟨q, hq⟩ : ∃ q, run parentChildEnv (fun l => l) 3 true false "app.yaml" = some (0, q) :=
    ⟨_, rfl⟩
  obtain ⟨q1, hq1, hv, _, _, hperm, _, _, _, _, _, herr⟩ :=
    (C7_silent_preserves_control_flow parentChildEnv (fun l => l) List.reverse 3 false "app.yaml"
      (fun l => List.Perm.refl l) (fun l => List.reverse_perm l)).1 0 q hq
  exact ⟨q, q1, hq, hq1, hv, hperm, herr (by decide)⟩

/-! ## C4: without `force`, the first failure ends the run -/

theorem failure_handled (E : Env) (p q : Proc) (parent path : String) (err : GoError)
    (h : failure E p parent path = some (err, q)) :
    q.handled = p.handled ∧ q.g.force = p.g.force := by
  rcases failure_state E p q parent path err h with rfl | ⟨rfl, _, _⟩ <;> exact ⟨rfl, rfl⟩

/-- Without `force`, a returning `AddFile` handled no error, an exiting one
exits with code 1 having handled exactly one, and a panicking one handled
none. -/
theorem AddFile_noforce (E : Env) :
    ∀ (fuel : Nat) (p : Proc) (parent path : String) (o : Ctl (Option GoError)),
      AddFile E fuel p parent path = some o → p.g.force = false →
      match o with
      | .ret _ q => q.handled = p.handled
      | .exit c q => c = 1 ∧ ∃ err, q.handled = p.handled ++ [err]
      | .panic q => q.handled = p.handled := by
  apply AddFile_rule E
    (fun _ _ p o => p.g.force = false →
      match o with
      | .ret _ q => q.handled = p.handled
      | .exit c q => c = 1 ∧ ∃ err, q.handled = p.handled ++ [err]
      | .panic q => q.handled = p.handled)
    (fun _ _ _ p _ q => p.g.force = false → q.handled = p.handled ∧ q.g.force = false)
  · intro p parent path err q hf hforce
    obtain ⟨hh, hfo⟩ := failure_handled E p q parent path err hf
    rw [handleError_eq, hfo, hforce]
    simp only [Bool.false_eq_true, ↓reduceIte, true_and]
    exact ⟨err, by simp [Proc.report, hh]⟩
  · intro p parent path _ _
    rfl
  · intro p parent path doc _ hforce
    exact ⟨rfl, hforce⟩
  · intro p parent path doc done file rest q q1 _ _ hL ⟨n, hn⟩ hR hforce
    obtain ⟨h1, h2⟩ := hL hforce
    have h3 := hR h2
    simp only at h3
    exact ⟨h3.trans h1, by rw [(Steps.flags E q q1 (AddFile_steps E _ _ _ _ _ hn)).2]; exact h2⟩
  · intro p parent path doc done file rest q o1 _ _ hL _ _ hR hforce
    obtain ⟨h1, h2⟩ := hL hforce
    have h3 := hR h2
    cases o1 with
    | ret r q1 => exact h3.trans h1
    | exit c q1 =>
      obtain ⟨hc, err, he⟩ := h3
      exact ⟨hc, err, by rw [he, h1]⟩
    | panic q1 => exact h3.trans h1
  · intro p parent path doc q _ hL hforce
    obtain ⟨h1, _⟩ := hL hforce
    simp only [addVars_eq]
    exact h1

/-- C4. Abort yields no output.  With `force` unset, for every environment,
root, order of `Range` and value of `silent`: a call of `AddFile` that fails
before its loop exits at once with code 1; a run in which an error was handed
to `handleError` handled exactly one, ended with exit code 1 and wrote nothing
to standard output; a run in which none was ended with code 0 after
`printVars`, or with the panic of the runtime, code 2, and an empty standard
output.  With fuel above the number of existing paths every run ends.  In the
example the root includes `ok.yaml`, the missing `missing.yaml` and
`late.yaml`: the run exits with code 1 at the missing file, the store already
holds `A ↦ 1` of `ok.yaml`, and standard output is empty. -/
theorem C4_abort_yields_no_output :
    (∀ (E : Env) (fuel : Nat) (p q : Proc) (parent path : String) (err : GoError),
      p.g.force = false → failure E p parent path = some (err, q) →
      AddFile E (fuel + 1) p parent path = some (.exit 1 (q.report "AddFile" err))) ∧
    (∀ (E : Env) (order : List (String × String) → List (String × String)) (fuel : Nat)
        (silent : Bool) (root : String) (code : Nat) (q : Proc),
      run E order fuel silent false root = some (code, q) →
      (q.handled ≠ [] → ∃ err, q.handled = [err] ∧ code = 1 ∧ q.stdout = []) ∧
      (q.handled = [] →
        (code = 0 ∧ q.stdout = (order q.g.vars).map exportLine) ∨
        (code = 2 ∧ q.stdout = []))) ∧
    (∀ (E : Env) (order : List (String × String) → List (String × String))
        (L : List String) (fuel : Nat) (silent : Bool) (root : String),
      (∀ x, E.stat x = none → x ∈ L) → L.length < fuel →
      ∃ code q, run E order fuel silent false root = some (code, q)) ∧
    (∀ (order : List (String × String) → List (String × String)) (silent : Bool),
      (run abortEnv order 3 silent false "app.yaml").map
          (fun r => (r.1, r.2.handled, r.2.g.vars, r.2.stdout))
        = some (1, [.PathError "stat" "missing.yaml" .ENOENT], [("A", "1")], [])) := by
  refine ⟨?_, ?_, ?_, fun order silent => by cases silent <;> rfl⟩
  · intro E fuel p q parent path err hforce hf
    rw [AddFile_of_failure E fuel p q parent path err hf, handleError_eq,
      (failure_handled E p q parent path err hf).2, hforce]
    rfl
  · intro E order fuel silent root code q h
    unfold run at h
    cases hc : AddFile E fuel (Proc.start silent false) "" root with
    | none => simp [hc] at h
    | some o =>
      have hn := AddFile_noforce E fuel _ "" root o hc rfl
      have hst := Steps.stdout E _ _ (AddFile_steps E fuel _ "" root o hc)
      cases o with
      | exit c q1 =>
        simp only [hc, Option.some.injEq, Prod.mk.injEq] at h
        obtain ⟨rfl, rfl⟩ := h
        obtain ⟨rfl, err, he⟩ := hn
        have he1 : q1.handled = [err] := he
        refine ⟨fun _ => ⟨err, he1, rfl, hst⟩, fun h0 => ?_⟩
        rw [he1] at h0
        simp at h0
      | panic q1 =>
        simp only [hc, Option.some.injEq, Prod.mk.injEq] at h
        obtain ⟨rfl, rfl⟩ := h
        have hn1 : q1.handled = [] := hn
        exact ⟨fun h0 => absurd hn1 h0, fun _ => Or.inr ⟨rfl, hst⟩⟩
      | ret r q1 =>
        have := AddFile_ret_none E _ _ _ _ _ _ hc
        subst this
        simp only [hc, Option.some.injEq, Prod.mk.injEq] at h
        obtain ⟨rfl, rfl⟩ := h
        have hn1 : q1.handled = [] := hn
        simp only [Ctl.proc] at hst
        refine ⟨fun h0 => absurd hn1 h0, fun _ => Or.inl ⟨rfl, ?_⟩⟩
        simp [printVars, hst, Proc.start]
  · intro E order L fuel silent root hL hfuel
    obtain ⟨o, ho⟩ := AddFile_total E L hL fuel (Proc.start silent false) "" root
      (lt_of_le_of_lt (unregistered_le_length L _) hfuel)
    unfold run
    rw [ho]
    cases o with
    | exit c q1 => exact ⟨_, _, rfl⟩
    | panic q1 => exact ⟨_, _, rfl⟩
    | ret r q1 =>
      cases r with
      | none => exact ⟨_, _, rfl⟩
      | some e => exact ⟨_, _, rfl⟩

/-- The first part of C4 at the missing include of the example. -/
theorem C4_abort_yields_no_output_witness :
    AddFile abortEnv 1 (Proc.start false false) "app.yaml" "missing.yaml"
      = some (.exit 1 (((Proc.start false false).enter "app.yaml" "missing.yaml").report
          "AddFile" (.PathError "stat" "missing.yaml" .ENOENT))) :=
  C4_abort_yields_no_output.1 abortEnv 0 (Proc.start false false) _ "app.yaml" "missing.yaml"
    _ rfl (by decide)

/-! ## C10: termination and the number of files read -/

theorem NewReads.refl (E : Env) (p : Proc) : NewReads E p p :=
  ⟨Steps.refl p, [], by simp, List.nodup_nil, by simp⟩

theorem NewReads.trans (E : Env) (p q r : Proc) (h1 : NewReads E p q) (h2 : NewReads E q r) :
    NewReads E p r := by
  obtain ⟨s1, w1, e1, n1, f1⟩ := h1
  obtain ⟨s2, w2, e2, n2, f2⟩ := h2
  refine ⟨Steps.trans _ _ _ s1 s2, w1 ++ w2, by rw [e2, e1, List.append_assoc], ?_, ?_⟩
  · rw [List.nodup_append]
    refine ⟨n1, n2, ?_⟩
    intro x hx1 hx2
    exact (f1 x hx1).2.2 (f2 x hx2).2.1
  · intro x hx
    rcases List.mem_append.1 hx with hx1 | hx2
    · obtain ⟨a, b, c⟩ := f1 x hx1
      refine ⟨a, b, ?_⟩
      cases hq : SyncMap.Load q.g.files x with
      | none => exact absurd hq c
      | some o => rw [Steps.files_mono E q r s2 x o hq]; simp
    · obtain ⟨a, b, c⟩ := f2 x hx2
      refine ⟨a, ?_, c⟩
      cases hp : SyncMap.Load p.g.files x with
      | none => rfl
      | some o => rw [Steps.files_mono E p q s1 x o hp] at b; simp at b

theorem NewReads.of_same (E : Env) (p q : Proc) (hs : Steps E p q) (hr : q.reads = p.reads) :
    NewReads E p q :=
  ⟨hs, [], by simp [hr], List.nodup_nil, by simp⟩

theorem NewReads.of_loaded_reads (E : Env) (p : Proc) (parent path : String)
    (hl : SyncMap.Load p.g.files path = none) (hs : E.stat path = none) :
    NewReads E p (p.loaded parent path) := by
  refine ⟨Steps.of_loaded E p parent path hl hs, [path], rfl, List.nodup_singleton _, ?_⟩
  intro x hx
  rw [List.mem_singleton] at hx
  subst hx
  refine ⟨hs, hl, ?_⟩
  rw [loaded_files, SyncMap.Load_Store_self]
  simp

theorem NewReads.of_report (E : Env) (q : Proc) (fn : String) (err : GoError) :
    NewReads E q (handleError q fn err).proc := by
  refine NewReads.of_same E _ _ (Steps.of_handleError E q fn err) ?_
  rw [handleError_eq]
  split <;> rfl

/-- The reads of one `AddFile` call are pairwise different existing paths that
the call registers. -/
theorem AddFile_reads (E : Env) :
    ∀ (fuel : Nat) (p : Proc) (parent path : String) (o : Ctl (Option GoError)),
      AddFile E fuel p parent path = some o → NewReads E p o.proc := by
  apply AddFile_rule E (fun _ _ p o => NewReads E p o.proc) (fun _ _ _ p _ q => NewReads E p q)
  · intro p parent path err q hf
    refine NewReads.trans E _ _ _ ?_ (NewReads.of_report E q _ err)
    rcases failure_state E p q parent path err hf with rfl | ⟨rfl, hl, hs⟩
    · exact NewReads.of_same E _ _ (Steps.enter p parent path) rfl
    · exact NewReads.of_loaded_reads E p parent path hl hs
  · intro p parent path hn
    exact NewReads.of_loaded_reads E p parent path hn.1 hn.2.1
  · intro p parent path doc hres
    exact NewReads.of_loaded_reads E p parent path hres.1 hres.2.1
  · intro p parent path doc done file rest q q1 _ _ hL _ hR
    exact NewReads.trans E _ _ _ hL hR
  · intro p parent path doc done file rest q o1 _ _ hL _ _ hR
    exact NewReads.trans E _ _ _ hL hR
  · intro p parent path doc q _ hL
    refine NewReads.trans E _ _ _ hL (NewReads.of_same E _ _ (Steps.addVars E _ q) ?_)
    rw [addVars_eq]
    rfl

theorem run_reads (E : Env) (order : List (String × String) → List (String × String))
    (fuel : Nat) (silent force : Bool) (root : String) (code : Nat)
    (q : Proc) (h : run E order fuel silent force root = some (code, q)) :
    ∃ q0, NewReads E (Proc.start silent force) q0 ∧ q.reads = q0.reads := by
  unfold run at h
  cases hc : AddFile E fuel (Proc.start silent force) "" root with
  | none => simp [hc] at h
  | some o =>
    have hn := AddFile_reads E fuel _ "" root o hc
    cases o with
    | exit c q1 =>
      simp only [hc, Option.some.injEq, Prod.mk.injEq] at h
      obtain ⟨rfl, rfl⟩ := h
      exact ⟨_, hn, rfl⟩
    | panic q1 =>
      simp only [hc, Option.some.injEq, Prod.mk.injEq] at h
      obtain ⟨rfl, rfl⟩ := h
      exact ⟨_, hn, rfl⟩
    | ret r q1 =>
      have := AddFile_ret_none E _ _ _ _ _ _ hc
      subst this
      simp only [hc, Option.some.injEq, Prod.mk.injEq] at h
      obtain ⟨rfl, rfl⟩ := h
      exact ⟨_, hn, rfl⟩

/-- C10. Termination on cyclic inclusion graphs.  For every environment whose
existing paths all occur in a list `L`, whatever the includes lists are, every
state, flags and arguments: `AddFile` with fuel above the length of `L` ends,
and so does the run.  A call that gets through `verifyFile` was made for a
path that exists and was unregistered, and registers it.  When `L` lists the
existing paths exactly once each, the files read in one run are pairwise
different existing paths, so there are at most as many as existing paths.  The
file that includes itself is read once, under both values of `force`. -/
theorem C10_termination :
    (∀ (E : Env) (L : List String), (∀ x, E.stat x = none → x ∈ L) →
      ∀ (fuel : Nat), L.length < fuel →
        (∀ (p : Proc) (parent path : String), ∃ o, AddFile E fuel p parent path = some o) ∧
        (∀ (order : List (String × String) → List (String × String)) (silent force : Bool)
            (root : String),
          ∃ code q, run E order fuel silent force root = some (code, q))) ∧
    (∀ (E : Env) (p q : Proc) (parent path : String),
      verifyFile E p parent path = (none, q) →
      E.stat path = none ∧ SyncMap.Load p.g.files path = none ∧
        SyncMap.Load q.g.files path = some parent) ∧
    (∀ (E : Env) (L : List String), L.Nodup → (∀ x, E.stat x = none ↔ x ∈ L) →
      ∀ (order : List (String × String) → List (String × String)) (fuel : Nat)
        (silent force : Bool) (root : String) (code : Nat) (q : Proc),
        run E order fuel silent force root = some (code, q) →
        q.reads.Nodup ∧ (∀ x ∈ q.reads, E.stat x = none) ∧ q.reads.length ≤ L.length) ∧
    (∀ (order : List (String × String) → List (String × String)) (silent force : Bool),
      (run cycleEnv order 2 silent force "a.yaml").map (fun r => r.2.reads)
        = some ["a.yaml"]) := by
  refine ⟨?_, ?_, ?_, fun order silent force => by cases silent <;> cases force <;> rfl⟩
  · intro E L hL fuel hfuel
    have htot : ∀ (p : Proc) (parent path : String),
        ∃ o, AddFile E fuel p parent path = some o := fun p parent path =>
      AddFile_total E L hL fuel p parent path
        (lt_of_le_of_lt (unregistered_le_length L p) hfuel)
    refine ⟨htot, ?_⟩
    intro order silent force root
    obtain ⟨o, ho⟩ := htot (Proc.start silent force) "" root
    unfold run
    rw [ho]
    cases o with
    | exit c q1 => exact ⟨_, _, rfl⟩
    | panic q1 => exact ⟨_, _, rfl⟩
    | ret r q1 =>
      cases r with
      | none => exact ⟨_, _, rfl⟩
      | some e => exact ⟨_, _, rfl⟩
  · intro E p q parent path h
    obtain ⟨hl, hs, rfl⟩ := (verifyFile_none_iff E p q parent path).1 h
    exact ⟨hs, hl, SyncMap.Load_Store_self _ _ _⟩
  · intro E L hnd hL order fuel silent force root code q h
    obtain ⟨q0, ⟨_, w, hw, hn, hf⟩, hq0⟩ := run_reads E order fuel silent force root code q h
    have hq : q.reads = w := by rw [hq0]; simpa [Proc.start] using hw
    rw [hq]
    refine ⟨hn, fun x hx => (hf x hx).1, ?_⟩
    exact (List.subperm_of_subset hn (fun x hx => (hL x).1 (hf x hx).1)).length_le

/-- The first part of C10 for the file that includes itself. -/
theorem C10_termination_witness :
    ∃ o, AddFile cycleEnv 2 (Proc.start false true) "" "a.yaml" = some o :=
  ((C10_termination.1 cycleEnv ["a.yaml"]
    (fun x hx => by
      by_contra hne
      have : cycleEnv.stat x = some .ENOENT := by
        simp only [cycleEnv, Env.ofTables, List.find?]
        simp only [List.mem_singleton] at hne
        simp [Ne.symm hne]
      rw [this] at hx
      simp at hx) 2 (by decide)).1 (Proc.start false true) "" "a.yaml")

/-! ## The loop over the includes, one include at a time -/

theorem includeLoop_cons_unfold (E : Env)
    (call : Proc → String → String → Option (Ctl (Option GoError)))
    (path relDir file : String) (rest : List String) (q : Proc) :
    includeLoop E call path relDir (file :: rest) q =
      match call q path (E.Join relDir file) with
      | none => none
      | some (.exit c q1) => some (.exit c q1)
      | some (.panic q1) => some (.panic q1)
      | some (.ret (some err) q1) =>
        match handleError q1 "AddFile" err with
        | .exit c q2 => some (.exit c q2)
        | .panic q2 => some (.panic q2)
        | .ret r q2 => some (.ret (.returned r) q2)
      | some (.ret none q1) => includeLoop E call path relDir rest q1 := rfl

theorem includeLoop_append (E : Env)
    (call : Proc → String → String → Option (Ctl (Option GoError)))
    (path relDir : String) (l1 l2 : List String) :
    ∀ q, includeLoop E call path relDir (l1 ++ l2) q =
      match includeLoop E call path relDir l1 q with
      | some (.ret .done q1) => includeLoop E call path relDir l2 q1
      | other => other := by
  induction l1 with
  | nil => intro q; rfl
  | cons file l1 ih =>
    intro q
    rw [List.cons_append, includeLoop_cons_unfold, includeLoop_cons_unfold]
    cases hc : call q path (E.Join relDir file) with
    | none => rfl
    | some o =>
      cases o with
      | exit c q1 => rfl
      | panic q1 => rfl
      | ret r q1 =>
        cases r with
        | none => exact ih q1
        | some err =>
          simp only
          cases handleError q1 "AddFile" err <;> rfl

theorem stateAfter_zero (E : Env) (fuel : Nat) (path : String) (doc : appYaml) (p0 : Proc) :
    stateAfter E fuel path doc p0 0 = some p0 := rfl

/-- The state after `n + 1` includes is the state in which the call for include
`n`, made in the state after `n` includes, returns. -/
theorem stateAfter_succ (E : Env) (fuel : Nat) (path : String) (doc : appYaml) (p0 : Proc)
    (n : Nat) (hn : n < doc.Includes.length) :
    stateAfter E fuel path doc p0 (n + 1) =
      match stateAfter E fuel path doc p0 n with
      | none => none
      | some a =>
        match AddFile E fuel a path (E.Join (E.Dir path) doc.Includes[n]) with
        | some (.ret _ b) => some b
        | _ => none := by
  unfold stateAfter
  have ht : doc.Includes.take (n + 1) = doc.Includes.take n ++ [doc.Includes.get ⟨n, hn⟩] := by
    rw [← List.take_concat_get doc.Includes n hn, List.concat_eq_append]
    rfl
  rw [ht, includeLoop_append]
  cases hl : includeLoop E (AddFile E fuel) path (E.Dir path) (doc.Includes.take n) p0 with
  | none => rfl
  | some lo =>
    cases lo with
    | exit c q => rfl
    | panic q => rfl
    | ret le q =>
      cases le with
      | returned r => rfl
      | done =>
        simp only
        rw [includeLoop_cons_eq]
        cases AddFile E fuel q path (E.Join (E.Dir path) doc.Includes[n]) with
        | none => rfl
        | some o =>
          cases o with
          | exit c q1 => rfl
          | panic q1 => rfl
          | ret r q1 => rfl

theorem stateAfter_of_le (E : Env) (fuel : Nat) (path : String) (doc : appYaml) (p0 : Proc)
    (n : Nat) (b : Proc) (h : stateAfter E fuel path doc p0 (n + 1) = some b)
    (hn : n < doc.Includes.length) :
    ∃ a, stateAfter E fuel path doc p0 n = some a ∧
      ∃ r, AddFile E fuel a path (E.Join (E.Dir path) doc.Includes[n])
        = some (.ret r b) := by
  rw [stateAfter_succ E fuel path doc p0 n hn] at h
  cases ha : stateAfter E fuel path doc p0 n with
  | none => simp [ha] at h
  | some a =>
    refine ⟨a, rfl, ?_⟩
    simp only [ha] at h
    cases hc : AddFile E fuel a path (E.Join (E.Dir path) doc.Includes[n]) with
    | none => simp [hc] at h
    | some o =>
      cases o with
      | exit c q1 => simp [hc] at h
      | panic q1 => simp [hc] at h
      | ret r q1 =>
        simp only [hc, Option.some.injEq] at h
        subst h
        exact ⟨r, rfl⟩

/-- When the loop runs to its end, it gets through every number of includes. -/
theorem stateAfter_of_done (E : Env) (fuel : Nat) (path : String) (doc : appYaml) (p0 qL : Proc)
    (h : includeLoop E (AddFile E fuel) path (E.Dir path) doc.Includes p0
      = some (.ret .done qL)) :
    (∀ n, ∃ a, stateAfter E fuel path doc p0 n = some a) ∧
      stateAfter E fuel path doc p0 doc.Includes.length = some qL := by
  constructor
  · intro n
    have hsplit := includeLoop_append E (AddFile E fuel) path (E.Dir path)
      (doc.Includes.take n) (doc.Includes.drop n) p0
    rw [List.take_append_drop, h] at hsplit
    unfold stateAfter
    cases hl : includeLoop E (AddFile E fuel) path (E.Dir path) (doc.Includes.take n) p0 with
    | none => simp [hl] at hsplit
    | some lo =>
      cases lo with
      | exit c q => simp [hl] at hsplit
      | panic q => simp [hl] at hsplit
      | ret le q =>
        cases le with
        | returned r => simp [hl] at hsplit
        | done => exact ⟨q, rfl⟩
  · unfold stateAfter
    rw [List.take_length, h]

/-- The writes of one include, and what they do to the store. -/
theorem subtreeWrites_spec (E : Env) (fuel : Nat) (path : String) (doc : appYaml) (p0 : Proc)
    (n : Nat) (hn : n < doc.Includes.length) (a b : Proc)
    (ha : stateAfter E fuel path doc p0 n = some a)
    (hb : stateAfter E fuel path doc p0 (n + 1) = some b) :
    ∃ w, subtreeWrites E fuel path doc p0 n = some w ∧ b.writes = a.writes ++ w ∧
      ∀ k, SyncMap.Load b.g.vars k = (lastWrite w k).orElse (fun _ => SyncMap.Load a.g.vars k) := by
  obtain ⟨a1, ha1, r, hc⟩ := stateAfter_of_le E fuel path doc p0 n b hb hn
  rw [ha] at ha1
  simp only [Option.some.injEq] at ha1
  subst ha1
  obtain ⟨w, hw, hv⟩ := Steps.writes E a b (AddFile_steps E _ _ _ _ _ hc)
  refine ⟨w, ?_, hw, ?_⟩
  · simp [subtreeWrites, ha, hb, hw]
  · intro k
    rw [hv, Load_replay]

/-! ## C2: of two includes, the one listed later wins -/

/-- C2. Later-listed sibling wins.  Let the call `AddFile(parent, P)` register,
read and decode `P` and return.  Let the includes at positions `i < j` of `P`
both write the key `k` (so both got through `verifyFile`, `ioutil.ReadFile` and
`yaml.Unmarshal`), let no include listed after `j` write `k`, and let `P` itself
not define `k`.  Then the value the store has for `k` when the call returns is
the value it had when include `j` returned, which is the value of the last
write to `k` under include `j`.  For a root without variables that includes `S1`
(`A=1`) and then `S2` (`A=2`), the run ends with code 0 and the store
`A ↦ 2`, for every setting of the flags and every order of `Range`. -/
theorem C2_later_sibling_wins :
    (∀ (E : Env) (fuel : Nat) (p qF : Proc) (parent P : String) (doc : appYaml),
      Resolves E p P doc → AddFile E (fuel + 1) p parent P = some (.ret none qF) →
      ∀ (i j : Nat) (k : String) (wi wj : List (String × String)),
        i < j → j < doc.Includes.length →
        subtreeWrites E fuel P doc (p.loaded parent P) i = some wi → k ∈ keysOf wi →
        subtreeWrites E fuel P doc (p.loaded parent P) j = some wj → k ∈ keysOf wj →
        (∀ m wm, j < m → m < doc.Includes.length →
          subtreeWrites E fuel P doc (p.loaded parent P) m = some wm → k ∉ keysOf wm) →
        doc.Env_variables.get k = none →
        ∃ b v, stateAfter E fuel P doc (p.loaded parent P) (j + 1) = some b ∧
          SyncMap.Load b.g.vars k = some v ∧ lastWrite wj k = some v ∧
          SyncMap.Load qF.g.vars k = some v) ∧
    (∀ (order : List (String × String) → List (String × String)) (silent force : Bool),
      (run siblingsEnv order 3 silent force "app.yaml").map (fun r => (r.1, r.2.g.vars))
        = some (0, [("A", "2")])) := by
  refine ⟨?_, fun order silent force => by cases silent <;> cases force <;> rfl⟩
  intro E fuel p qF parent P doc hres hrun i j k wi wj _ hj _ _ hwj hkj hlater hget
  obtain ⟨n, qL, hfuel, _, hloop, rfl⟩ :=
    AddFile_ret_of_resolves E (fuel + 1) p qF parent P doc none hres hrun
  have hn : n = fuel := by omega
  subst hn
  obtain ⟨hall, hlast⟩ := stateAfter_of_done E n P doc (p.loaded parent P) qL hloop
  obtain ⟨a, ha⟩ := hall j
  obtain ⟨b, hb⟩ := hall (j + 1)
  obtain ⟨w, hw, _, hload⟩ := subtreeWrites_spec E n P doc _ j hj a b ha hb
  rw [hwj] at hw
  simp only [Option.some.injEq] at hw
  subst hw
  cases hv : lastWrite wj k with
  | none => exact absurd hkj ((lastWrite_eq_none_iff wj k).1 hv)
  | some v =>
    have hbk : SyncMap.Load b.g.vars k = some v := by rw [hload k, hv]; rfl
    refine ⟨b, v, hb, hbk, rfl, ?_⟩
    have hind : ∀ d, j + 1 + d ≤ doc.Includes.length →
        ∃ a1, stateAfter E n P doc (p.loaded parent P) (j + 1 + d) = some a1 ∧
          SyncMap.Load a1.g.vars k = some v := by
      intro d
      induction d with
      | zero => intro _; exact ⟨b, hb, hbk⟩
      | succ d ih =>
        intro hd
        obtain ⟨a1, ha1, hk1⟩ := ih (by omega)
        obtain ⟨b1, hb1⟩ := hall (j + 1 + d + 1)
        obtain ⟨w1, hw1, _, hload1⟩ :=
          subtreeWrites_spec E n P doc _ (j + 1 + d) (by omega) a1 b1 ha1 hb1
        have hnot := hlater (j + 1 + d) w1 (by omega) (by omega) hw1
        refine ⟨b1, hb1, ?_⟩
        rw [hload1 k, (lastWrite_eq_none_iff w1 k).2 hnot]
        exact hk1
    obtain ⟨a1, ha1, hk1⟩ := hind (doc.Includes.length - (j + 1)) (by omega)
    have hlen : j + 1 + (doc.Includes.length - (j + 1)) = doc.Includes.length := by omega
    rw [hlen, hlast] at ha1
    simp only [Option.some.injEq] at ha1
    subst ha1
    rw [Load_addVars_of_get_none _ _ _ hget]
    exact hk1

/-- The general statement of C2 at the root of the example of the two
siblings. -/
theorem C2_later_sibling_wins_witness :
    ∃ qF, AddFile siblingsEnv 2 (Proc.start false false) "" "app.yaml" = some (.ret none qF) ∧
      ∃ b v, stateAfter siblingsEnv 1 "app.yaml" siblingsRoot
          ((Proc.start false false).loaded "" "app.yaml") 2 = some b ∧
        SyncMap.Load b.g.vars "A" = some v ∧ lastWrite [("A", "2")] "A" = some v ∧
        SyncMap.Load qF.g.vars "A" = some v := by
  obtain ⟨qF, h⟩ := AddFile_ret_of_isRet siblingsEnv 2 (Proc.start false false) ""
    "app.yaml" (by decide)
  refine ⟨qF, h, ?_⟩
  have hres : Resolves siblingsEnv (Proc.start false false) "app.yaml" siblingsRoot :=
    ⟨by decide, by decide, "includes:\n- s1.yaml\n- s2.yaml\n", rfl, rfl⟩
  exact C2_later_sibling_wins.1 siblingsEnv 1 _ qF "" "app.yaml" siblingsRoot hres h 0 1 "A"
    [("A", "1")] [("A", "2")] (by decide) (by decide) (by decide) (by decide) (by decide)
    (by decide)
    (fun m wm hm hlt _ => by
      have h2 : siblingsRoot.Includes.length = 2 := rfl
      omega)
    (by decide)

/-! ## C6: the arguments of the recursive calls -/

theorem Parses_unique (E : Env) (path : String) (doc1 doc2 : appYaml)
    (h1 : Parses E path doc1) (h2 : Parses E path doc2) : doc1 = doc2 := by
  obtain ⟨c1, hr1, hu1⟩ := h1
  obtain ⟨c2, hr2, hu2⟩ := h2
  rw [hr1] at hr2
  simp only [Except.ok.injEq] at hr2
  subst hr2
  rw [hu1] at hu2
  simpa using hu2

theorem Steps.registered_mono (E : Env) (p q : Proc) (h : Steps E p q) (x : String)
    (hx : SyncMap.Load p.g.files x ≠ none) : SyncMap.Load q.g.files x ≠ none := by
  cases hp : SyncMap.Load p.g.files x with
  | none => exact absurd hp hx
  | some o => rw [Steps.files_mono E p q h x o hp]; simp

theorem Steps.unregistered_of (E : Env) (p q : Proc) (h : Steps E p q) (x : String)
    (hx : SyncMap.Load q.g.files x = none) : SyncMap.Load p.g.files x = none := by
  by_contra hne
  exact Steps.registered_mono E p q h x hne hx

theorem IncludeCall.mono_steps (E : Env) (p q : Proc) (h : Steps E p q) (c : String × String)
    (hc : IncludeCall E p c) : IncludeCall E q c :=
  ⟨Steps.registered_mono E p q h c.1 hc.1, hc.2⟩

theorem IncludeCall.of_same_files (E : Env) (p q : Proc) (h : q.g.files = p.g.files)
    (c : String × String) (hc : IncludeCall E p c) : IncludeCall E q c :=
  ⟨by rw [h]; exact hc.1, hc.2⟩

theorem report_files (q : Proc) (fn : String) (err : GoError) :
    (handleError q fn err).proc.g.files = q.g.files ∧
    (handleError q fn err).proc.calls = q.calls ∧
    (handleError q fn err).proc.g.vars = q.g.vars ∧
    (handleError q fn err).proc.writes = q.writes := by
  rw [handleError_eq]
  split <;> exact ⟨rfl, rfl, rfl, rfl⟩

theorem OriginsOK.of_loaded_files (E : Env) (parent path : String) (p q : Proc)
    (hf : q.g.files = (p.loaded parent path).g.files) : OriginsOK E parent path p q := by
  intro x orig hp hq
  rw [hf, loaded_files, SyncMap.Load_Store] at hq
  by_cases hx : x = path
  · simp only [hx, ↓reduceIte, Option.some.injEq] at hq
    exact Or.inl ⟨hx, hq.symm⟩
  · simp only [hx, ↓reduceIte] at hq
    rw [hp] at hq
    simp at hq

theorem OriginsOK.of_unchanged_files (E : Env) (parent path : String) (p q : Proc)
    (hf : q.g.files = p.g.files) : OriginsOK E parent path p q := by
  intro x orig hp hq
  rw [hf, hp] at hq
  simp at hq

/-- The calls and the origins that one call of `AddFile` logs and records. -/
theorem AddFile_calls (E : Env) :
    ∀ (fuel : Nat) (p : Proc) (parent path : String) (o : Ctl (Option GoError)),
      AddFile E fuel p parent path = some o →
      Steps E p o.proc ∧ OriginsOK E parent path p o.proc ∧
        ∃ done, CallsOK E parent path p o.proc done ∧
          ∀ doc r q, Resolves E p path doc → o = .ret r q → done = doc.Includes := by
  apply AddFile_rule E
    (fun parent path p o => Steps E p o.proc ∧ OriginsOK E parent path p o.proc ∧
        ∃ done, CallsOK E parent path p o.proc done ∧
          ∀ doc r q, Resolves E p path doc → o = .ret r q → done = doc.Includes)
    (fun parent path _ p done q => Steps E p q ∧ SyncMap.Load q.g.files path ≠ none ∧
        OriginsOK E parent path p q ∧ CallsOK E parent path p q done)
  · intro p parent path err q hf
    have hrep := report_files q "AddFile" err
    have hsteps : Steps E p (handleError q "AddFile" err).proc :=
      Steps.trans _ _ _ (Steps.failure E p q parent path err hf) (Steps.of_handleError E q _ err)
    refine ⟨hsteps, ?_, [], ⟨[], ?_, by simp, by simp⟩, ?_⟩
    · rcases failure_state E p q parent path err hf with rfl | ⟨rfl, _, _⟩
      · exact OriginsOK.of_unchanged_files E parent path p _ hrep.1
      · exact OriginsOK.of_loaded_files E parent path p _ hrep.1
    · rw [hrep.2.1]
      rcases failure_state E p q parent path err hf with rfl | ⟨rfl, _, _⟩ <;> rfl
    · intro doc r q1 hres _
      have := failure_none_of_resolves E p parent path doc hres
      rw [this] at hf
      simp at hf
  · intro p parent path hn
    refine ⟨Steps.of_loaded E p parent path hn.1 hn.2.1,
      OriginsOK.of_loaded_files E parent path p _ rfl, [], ⟨[], rfl, by simp, by simp⟩, ?_⟩
    intro doc r q _ h
    simp at h
  · intro p parent path doc hres
    refine ⟨Steps.of_loaded E p parent path hres.1 hres.2.1, ?_,
      OriginsOK.of_loaded_files E parent path p _ rfl, [], rfl, by simp, by simp⟩
    rw [loaded_files, SyncMap.Load_Store_self]
    simp
  · intro p parent path doc done file rest q q1 hres hd hL ⟨n, hn⟩ hR
    obtain ⟨hs1, hreg, hor1, cs1, hc1, hi1, hd1⟩ := hL
    obtain ⟨hs2, hor2, done2, ⟨cs2, hc2, hi2, _⟩, _⟩ := hR
    simp only [Ctl.proc] at hs2 hor2 hc2 hi2
    have hreg1 := Steps.registered_mono E q q1 hs2 path hreg
    have hcall : IncludeCall E q1 (path, E.Join (E.Dir path) file) :=
      ⟨hreg1, doc, file, hres.2.2, by rw [hd]; simp, rfl⟩
    refine ⟨Steps.trans _ _ _ hs1 hs2, hreg1, ?_, cs1 ++ (path, E.Join (E.Dir path) file) :: cs2,
      by rw [hc2, hc1]; simp, ?_, ?_⟩
    · intro x orig hp hq1
      cases hq : SyncMap.Load q.g.files x with
      | some o1 =>
        have := Steps.files_mono E q q1 hs2 x o1 hq
        rw [hq1] at this
        simp only [Option.some.injEq] at this
        subst this
        rcases hor1 x orig hp hq with h | h
        · exact Or.inl h
        · exact Or.inr (IncludeCall.mono_steps E q q1 hs2 _ h)
      | none =>
        rcases hor2 x orig hq hq1 with ⟨rfl, rfl⟩ | h
        · exact Or.inr hcall
        · exact Or.inr h
    · intro c hc
      rcases List.mem_append.1 hc with h | h
      · exact IncludeCall.mono_steps E q q1 hs2 _ (hi1 c h)
      · rcases List.mem_cons.1 h with rfl | h
        · exact hcall
        · exact hi2 c h
    · intro e he
      rcases List.mem_append.1 he with h | h
      · exact List.mem_append_left _ (hd1 e h)
      · rw [List.mem_singleton] at h
        subst h
        exact List.mem_append_right _ (List.mem_cons_self _ _)
  · intro p parent path doc done file rest q o1 hres hd hL hnr ⟨n, hn⟩ hR
    obtain ⟨hs1, hreg, hor1, cs1, hc1, hi1, hd1⟩ := hL
    obtain ⟨hs2, hor2, done2, ⟨cs2, hc2, hi2, _⟩, _⟩ := hR
    have hreg1 := Steps.registered_mono E q o1.proc hs2 path hreg
    have hcall : IncludeCall E o1.proc (path, E.Join (E.Dir path) file) :=
      ⟨hreg1, doc, file, hres.2.2, by rw [hd]; simp, rfl⟩
    refine ⟨Steps.trans _ _ _ hs1 hs2, ?_, [], ⟨cs1 ++ (path, E.Join (E.Dir path) file) :: cs2,
      by rw [hc2, hc1]; simp, ?_, by simp⟩, ?_⟩
    · intro x orig hp hq1
      cases hq : SyncMap.Load q.g.files x with
      | some o2 =>
        have := Steps.files_mono E q o1.proc hs2 x o2 hq
        rw [hq1] at this
        simp only [Option.some.injEq] at this
        subst this
        rcases hor1 x orig hp hq with h | h
        · exact Or.inl h
        · exact Or.inr (IncludeCall.mono_steps E q o1.proc hs2 _ h)
      | none =>
        rcases hor2 x orig hq hq1 with ⟨rfl, rfl⟩ | h
        · exact Or.inr hcall
        · exact Or.inr h
    · intro c1 hc
      rcases List.mem_append.1 hc with h | h
      · exact IncludeCall.mono_steps E q o1.proc hs2 _ (hi1 c1 h)
      · rcases List.mem_cons.1 h with rfl | h
        · exact hcall
        · exact hi2 c1 h
    · intro doc1 r q2 _ h
      rw [h] at hnr
      simp [Ctl.isRet] at hnr
  · intro p parent path doc q hres hL
    obtain ⟨hs1, hreg, hor1, cs1, hc1, hi1, hd1⟩ := hL
    have hf : (addVars q doc.Env_variables).2.g.files = q.g.files := by rw [addVars_eq]
    have hcl : (addVars q doc.Env_variables).2.calls = q.calls := by rw [addVars_eq]
    refine ⟨Steps.trans _ _ _ hs1 (Steps.addVars E _ q), ?_, doc.Includes,
      ⟨cs1, by simp only [Ctl.proc]; rw [hcl, hc1], ?_, hd1⟩, ?_⟩
    · intro x orig hp hq
      simp only [Ctl.proc] at hq ⊢
      rw [hf] at hq
      rcases hor1 x orig hp hq with h | h
      · exact Or.inl h
      · exact Or.inr (IncludeCall.of_same_files E q _ hf _ h)
    · intro c hc
      exact IncludeCall.of_same_files E q _ hf _ (hi1 c hc)
    · intro doc1 r q1 hres1 _
      rw [Parses_unique E path doc doc1 hres.2.2 hres1.2.2]

/-- C6. Include paths are resolved against the directory of the including file.
In the loop of `AddFile(_, P)`, the call for the entry number `n` of the
includes of `P` is `AddFile(P, Join(Dir(P), entry))`, made in the state left by
the entries before it, and a path that gets through `verifyFile` in a call is
recorded with the parent of that call.  Hence, for every call of `AddFile`:
the calls it logs after its own are calls `(x, Join(Dir(x), e))` for an entry
`e` of the includes of a registered file `x`; every path it registers, other
than its own, is recorded with an origin `x` of which it is such an include;
and when it returns for a file that resolved, it made the call for every entry
of the includes of that file.  In the example `conf/app.yaml` includes
`sub/a.yaml`, which includes `b.yaml`: the files read are `conf/app.yaml`,
`conf/sub/a.yaml` and `conf/sub/b.yaml`, each recorded with the file that
names it, and `V` has the value of `conf/sub/b.yaml`, not that of `conf/b.yaml`
or `b.yaml`, whatever the flags and the order of `Range`. -/
theorem C6_include_paths_relative :
    (∀ (E : Env) (fuel : Nat) (p a : Proc) (parent P : String) (doc : appYaml) (n : Nat)
        (hn : n < doc.Includes.length),
      Resolves E p P doc → stateAfter E fuel P doc (p.loaded parent P) n = some a →
      stateAfter E fuel P doc (p.loaded parent P) (n + 1) =
        match AddFile E fuel a P (E.Join (E.Dir P) doc.Includes[n]) with
        | some (.ret _ b) => some b
        | _ => none) ∧
    (∀ (E : Env) (p q : Proc) (parent path : String),
      verifyFile E p parent path = (none, q) → SyncMap.Load q.g.files path = some parent) ∧
    (∀ (E : Env) (fuel : Nat) (p : Proc) (parent P : String) (o : Ctl (Option GoError)),
      AddFile E fuel p parent P = some o →
      (∃ cs, o.proc.calls = p.calls ++ (parent, P) :: cs ∧ ∀ c ∈ cs, IncludeCall E o.proc c) ∧
      OriginsOK E parent P p o.proc) ∧
    (∀ (E : Env) (fuel : Nat) (p q : Proc) (parent P : String) (doc : appYaml)
        (r : Option GoError),
      Resolves E p P doc → AddFile E fuel p parent P = some (.ret r q) →
      SyncMap.Load q.g.files P = some parent ∧
      ∀ e ∈ doc.Includes, (P, E.Join (E.Dir P) e) ∈ q.calls.drop (p.calls.length + 1)) ∧
    (∀ (order : List (String × String) → List (String × String)) (silent force : Bool),
      (run nestedEnv order 4 silent force "conf/app.yaml").map
          (fun r => (r.1, r.2.reads, r.2.g.files, r.2.g.vars))
        = some (0, ["conf/app.yaml", "conf/sub/a.yaml", "conf/sub/b.yaml"],
            [("conf/app.yaml", ""), ("conf/sub/a.yaml", "conf/app.yaml"),
             ("conf/sub/b.yaml", "conf/sub/a.yaml")],
            [("V", "nested")])) := by
  refine ⟨?_, ?_, ?_, ?_, fun order silent force => by cases silent <;> cases force <;> rfl⟩
  · intro E fuel p a parent P doc n hn _ ha
    rw [stateAfter_succ E fuel P doc _ n hn, ha]
  · intro E p q parent path h
    obtain ⟨_, _, rfl⟩ := (verifyFile_none_iff E p q parent path).1 h
    exact SyncMap.Load_Store_self _ _ _
  · intro E fuel p parent P o h
    obtain ⟨_, hor, done, ⟨cs, hc, hi, _⟩, _⟩ := AddFile_calls E fuel p parent P o h
    exact ⟨⟨cs, hc, hi⟩, hor⟩
  · intro E fuel p q parent P doc r hres h
    obtain ⟨hs, hor, done, ⟨cs, hc, hi, hd⟩, hdone⟩ := AddFile_calls E fuel p parent P _ h
    have hdone1 := hdone doc r q hres rfl
    subst hdone1
    simp only [Ctl.proc] at hc hs
    constructor
    · have h1 : SyncMap.Load (p.loaded parent P).g.files P = some parent := by
        rw [loaded_files, SyncMap.Load_Store_self]
      obtain ⟨n, q1, _, _, hloop, rfl⟩ := AddFile_ret_of_resolves E fuel p q parent P doc r hres h
      have hsteps : Steps E (p.loaded parent P) q1 := by
        have hall := stateAfter_of_done E n P doc (p.loaded parent P) q1 hloop
        clear hs hor hc hi hd hdone
        have hind : ∀ m a, stateAfter E n P doc (p.loaded parent P) m = some a →
            Steps E (p.loaded parent P) a := by
          intro m
          induction m with
          | zero =>
            intro a ha
            rw [stateAfter_zero] at ha
            simp only [Option.some.injEq] at ha
            subst ha
            exact Steps.refl _
          | succ m ih =>
            intro a ha
            by_cases hm : m < doc.Includes.length
            · obtain ⟨a0, ha0, r0, hc0⟩ := stateAfter_of_le E n P doc _ m a ha hm
              exact Steps.trans _ _ _ (ih a0 ha0) (AddFile_steps E _ _ _ _ _ hc0)
            · apply ih
              unfold stateAfter at ha ⊢
              rw [List.take_of_length_le (by omega)] at ha ⊢
              exact ha
        exact hind _ _ hall.2
      rw [addVars_eq]
      exact Steps.files_mono E _ _ hsteps P parent h1
    · intro e he
      rw [hc]
      simp only [List.drop_append_eq_append_drop, List.drop_of_length_le (le_of_lt (Nat.lt_succ_self _)),
        List.nil_append, Nat.add_sub_cancel_left, List.drop_succ_cons, List.drop_zero]
      exact hd e he

/-- The third part of C6 at the root of the nested example. -/
theorem C6_include_paths_relative_witness :
    ∃ q, AddFile nestedEnv 4 (Proc.start false false) "" "conf/app.yaml" = some (.ret none q) ∧
      OriginsOK nestedEnv "" "conf/app.yaml" (Proc.start false false) q := by
  obtain ⟨q, h⟩ := AddFile_ret_of_isRet nestedEnv 4 (Proc.start false false) ""
    "conf/app.yaml" (by decide)
  exact ⟨q, h, (C6_include_paths_relative.2.2.1 nestedEnv 4 _ "" "conf/app.yaml" _ h).2⟩

/-! ## C5: `force`, and the null document -/

theorem SyncMap.mem_of_Load (m : SyncMap) (k v : String) (h : SyncMap.Load m k = some v) :
    (k, v) ∈ m := by
  induction m with
  | nil => simp [SyncMap.Load] at h
  | cons a m ih =>
    obtain ⟨k0, v0⟩ := a
    by_cases hk : k0 = k
    · simp only [SyncMap.Load, hk, ↓reduceIte, Option.some.injEq] at h
      subst hk h
      exact List.mem_cons_self _ _
    · simp only [SyncMap.Load, hk, ↓reduceIte] at h
      exact List.mem_cons_of_mem _ (ih h)

theorem Steps.vars_mono (E : Env) (p q : Proc) (h : Steps E p q) (k : String)
    (hk : SyncMap.Load p.g.vars k ≠ none) : SyncMap.Load q.g.vars k ≠ none := by
  obtain ⟨w, _, hv⟩ := Steps.writes E p q h
  rw [hv, Load_replay]
  cases hl : lastWrite w k with
  | some v => simp
  | none => simpa using hk

theorem Steps.calls_mono (E : Env) (p q : Proc) (h : Steps E p q) (c : String × String)
    (hc : c ∈ p.calls) : c ∈ q.calls := by
  obtain ⟨cs, hcs⟩ := Steps.calls E p q h
  rw [hcs]
  exact List.mem_append_left _ hc

theorem Complete.mono_complete (E : Env) (p q : Proc) (h : Steps E p q) (x : String)
    (hc : Complete E p x) : Complete E q x := by
  intro doc hd
  obtain ⟨h1, h2⟩ := hc doc hd
  refine ⟨fun kv hkv => Steps.vars_mono E p q h _ (h1 kv hkv), fun e he => ?_⟩
  obtain ⟨h3, h4⟩ := h2 e he
  exact ⟨Steps.calls_mono E p q h _ h3, fun hs => Steps.registered_mono E p q h _ (h4 hs)⟩

/-- With `force` set, a call of `AddFile` that returns leaves every file it
registers fully merged, and every new entry of the store comes from such a
file. -/
theorem AddFile_force (E : Env) :
    ∀ (fuel : Nat) (p : Proc) (parent path : String) (o : Ctl (Option GoError)),
      AddFile E fuel p parent path = some o → p.g.force = true → o.isRet = true →
      Steps E p o.proc ∧
      (∀ x, SyncMap.Load p.g.files x = none → SyncMap.Load o.proc.g.files x ≠ none →
        Complete E o.proc x) ∧
      Provenance E p o.proc ∧ (parent, path) ∈ o.proc.calls ∧
      (E.stat path = none → SyncMap.Load o.proc.g.files path ≠ none) := by
  apply AddFile_rule E
    (fun parent path p o => p.g.force = true → o.isRet = true →
      Steps E p o.proc ∧
      (∀ x, SyncMap.Load p.g.files x = none → SyncMap.Load o.proc.g.files x ≠ none →
        Complete E o.proc x) ∧
      Provenance E p o.proc ∧ (parent, path) ∈ o.proc.calls ∧
      (E.stat path = none → SyncMap.Load o.proc.g.files path ≠ none))
    (fun parent path _ p done q => p.g.force = true →
      q.g.force = true ∧ Steps E p q ∧ (parent, path) ∈ q.calls ∧
      SyncMap.Load q.g.files path ≠ none ∧
      (∀ x, x ≠ path → SyncMap.Load p.g.files x = none → SyncMap.Load q.g.files x ≠ none →
        Complete E q x) ∧
      Provenance E p q ∧
      ∀ e ∈ done, (path, E.Join (E.Dir path) e) ∈ q.calls ∧
        (E.stat (E.Join (E.Dir path) e) = none →
          SyncMap.Load q.g.files (E.Join (E.Dir path) e) ≠ none))
  · intro p parent path err q hf _ _
    obtain ⟨hrf, hrc, hrv, _⟩ := report_files q "AddFile" err
    have hsteps : Steps E p (handleError q "AddFile" err).proc :=
      Steps.trans _ _ _ (Steps.failure E p q parent path err hf) (Steps.of_handleError E q _ err)
    have hprov : Provenance E p (handleError q "AddFile" err).proc := by
      intro k v hk
      left
      rw [hrv] at hk
      rcases failure_state E p q parent path err hf with rfl | ⟨rfl, _, _⟩ <;> exact hk
    have hcall : (parent, path) ∈ (handleError q "AddFile" err).proc.calls := by
      rw [hrc]
      rcases failure_state E p q parent path err hf with rfl | ⟨rfl, _, _⟩ <;>
        simp [Proc.enter, Proc.loaded, Proc.register, Proc.reading]
    refine ⟨hsteps, ?_, hprov, hcall, ?_⟩
    · intro x hpx hox
      rw [hrf] at hox
      rcases failure_state E p q parent path err hf with rfl | ⟨rfl, hl, hs⟩
      · exact absurd hpx hox
      · have hx : x = path := by
          by_contra hne
          rw [loaded_files, SyncMap.Load_Store_of_ne _ _ _ _ hne] at hox
          exact hox hpx
        subst hx
        intro doc hd
        have := failure_none_of_resolves E p parent x doc ⟨hl, hs, hd⟩
        rw [this] at hf
        simp at hf
    · intro hs
      rw [hrf]
      rcases failure_cases E p q parent path err hf with
        ⟨o, h1, rfl, _⟩ | ⟨e, _, h1, _, _⟩ | ⟨op, e, _, _, _, rfl, _⟩ | ⟨c, m, _, _, _, _, rfl, _⟩
      · show SyncMap.Load p.g.files path ≠ none
        rw [h1]; simp
      · rw [hs] at h1; simp at h1
      · rw [loaded_files, SyncMap.Load_Store_self]; simp
      · rw [loaded_files, SyncMap.Load_Store_self]; simp
  · intro p parent path _ _ h
    simp [Ctl.isRet] at h
  · intro p parent path doc hres hforce
    refine ⟨hforce, Steps.of_loaded E p parent path hres.1 hres.2.1,
      by simp [Proc.enter, Proc.loaded, Proc.register, Proc.reading], ?_, ?_, ?_, by simp⟩
    · rw [loaded_files, SyncMap.Load_Store_self]; simp
    · intro x hne hpx hqx
      rw [loaded_files, SyncMap.Load_Store_of_ne _ _ _ _ hne] at hqx
      exact absurd hpx hqx
    · intro k v hk
      exact Or.inl hk
  · intro p parent path doc done file rest q q1 hres hd hL ⟨n, hn⟩ hR hforce
    obtain ⟨hfq, hs1, hcp, hreg, hcomp1, hprov1, hdone1⟩ := hL hforce
    obtain ⟨hs2, hcomp2, hprov2, hcall2, hstat2⟩ := hR hfq rfl
    simp only [Ctl.proc] at hs2 hcomp2 hprov2 hcall2 hstat2
    refine ⟨by rw [(Steps.flags E q q1 hs2).2]; exact hfq, Steps.trans _ _ _ hs1 hs2,
      Steps.calls_mono E q q1 hs2 _ hcp,
      Steps.registered_mono E q q1 hs2 path hreg, ?_, ?_, ?_⟩
    · intro x hne hpx hq1x
      cases hqx : SyncMap.Load q.g.files x with
      | none => exact hcomp2 x hqx hq1x
      | some o1 =>
        exact Complete.mono_complete E q q1 hs2 x (hcomp1 x hne hpx (by rw [hqx]; simp))
    · intro k v hk
      rcases hprov2 k v hk with h | ⟨x, doc1, hqx, hq1x, hp, hmem⟩
      · rcases hprov1 k v h with h1 | ⟨x, doc1, hpx, hqx, hp, hmem⟩
        · exact Or.inl h1
        · exact Or.inr ⟨x, doc1, hpx, Steps.registered_mono E q q1 hs2 x hqx, hp, hmem⟩
      · exact Or.inr ⟨x, doc1, Steps.unregistered_of E p q hs1 x hqx, hq1x, hp, hmem⟩
    · intro e he
      rcases List.mem_append.1 he with h | h
      · obtain ⟨h1, h2⟩ := hdone1 e h
        exact ⟨Steps.calls_mono E q q1 hs2 _ h1,
          fun hs => Steps.registered_mono E q q1 hs2 _ (h2 hs)⟩
      · rw [List.mem_singleton] at h
        subst h
        exact ⟨hcall2, hstat2⟩
  · intro p parent path doc done file rest q o1 _ _ _ hnr _ _ _ hret
    rw [hnr] at hret
    simp at hret
  · intro p parent path doc q hres hL hforce _
    obtain ⟨_, hs1, hcallp, hreg, hcomp1, hprov1, hdone1⟩ := hL hforce
    have hsa : Steps E q (addVars q doc.Env_variables).2 := Steps.addVars E _ q
    have hf : (addVars q doc.Env_variables).2.g.files = q.g.files := by rw [addVars_eq]
    have hcl : (addVars q doc.Env_variables).2.calls = q.calls := by rw [addVars_eq]
    simp only [Ctl.proc]
    refine ⟨Steps.trans _ _ _ hs1 hsa, ?_, ?_, by rw [hcl]; exact hcallp,
      fun _ => by rw [hf]; exact hreg⟩
    · intro x hpx hqx
      by_cases hx : x = path
      · subst hx
        intro doc1 hd1
        have hdoc := Parses_unique E x doc doc1 hres.2.2 hd1
        subst hdoc
        refine ⟨fun kv hkv => ?_, fun e he => ?_⟩
        · have hget := (GoMap.get_eq_some_iff doc.Env_variables kv.1 kv.2).2 hkv
          rw [Load_addVars_of_get q _ _ _ hget]
          simp
        · rw [hcl, hf]
          exact hdone1 e he
      · rw [hf] at hqx
        exact Complete.mono_complete E q _ hsa x (hcomp1 x hx hpx hqx)
    · intro k v hk
      rw [addVars_vars, Load_replay] at hk
      cases hl : lastWrite doc.Env_variables.entries k with
      | some v1 =>
        rw [hl] at hk
        simp only [Option.orElse, Option.some.injEq] at hk
        subst hk
        exact Or.inr ⟨path, doc, hres.1, by rw [hf]; exact hreg, hres.2.2,
          lastWrite_mem _ _ _ hl⟩
      | none =>
        rw [hl] at hk
        rcases hprov1 k v hk with h1 | ⟨x, doc1, hpx, hqx, hp, hmem⟩
        · exact Or.inl h1
        · exact Or.inr ⟨x, doc1, hpx, by rw [hf]; exact hqx, hp, hmem⟩

/-- With `force` set: `AddFile` never ends the process through `os.Exit`; a
call that fails before its loop returns with the store and the log of writes as
they were; with fuel above the number of existing paths the run ends, with
code 0 or with the panic of the runtime, code 2.  When a run ends with code 0,
its standard output is what `printVars` writes for the final store; for every
registered file that is read and decoded to a document, every variable of the
file has a value in the final store (and a write on standard output when
`Range` visits every entry), and for every entry of its includes, also one
listed after a failing one, the call was made and the included path, if it
exists, is registered; and every entry of the final store is a variable of a
registered file that is read and decoded. -/
theorem force_merges_when_returning :
    (∀ (E : Env) (fuel : Nat) (p : Proc) (parent path : String) (o : Ctl (Option GoError)),
      p.g.force = true → AddFile E fuel p parent path = some o → ∀ c q, o ≠ .exit c q) ∧
    (∀ (E : Env) (fuel : Nat) (p q : Proc) (parent path : String) (err : GoError),
      p.g.force = true → failure E p parent path = some (err, q) →
      AddFile E (fuel + 1) p parent path = some (.ret none (q.report "AddFile" err)) ∧
      (q.report "AddFile" err).g.vars = p.g.vars ∧
      (q.report "AddFile" err).writes = p.writes) ∧
    (∀ (E : Env) (order : List (String × String) → List (String × String))
        (L : List String) (fuel : Nat) (silent : Bool) (root : String),
      (∀ x, E.stat x = none → x ∈ L) → L.length < fuel →
      ∃ code q, run E order fuel silent true root = some (code, q) ∧
        (code = 0 ∨ code = 2)) ∧
    (∀ (E : Env) (order : List (String × String) → List (String × String)) (fuel : Nat)
        (silent : Bool) (root : String) (q : Proc),
      run E order fuel silent true root = some (0, q) →
      q.stdout = (order q.g.vars).map exportLine ∧
      (∀ x doc, SyncMap.Load q.g.files x ≠ none → Parses E x doc →
        (∀ k v, doc.Env_variables.get k = some v →
          ∃ v1, SyncMap.Load q.g.vars k = some v1 ∧
            ((order q.g.vars).Perm q.g.vars → exportLine (k, v1) ∈ q.stdout)) ∧
        (∀ e ∈ doc.Includes, (x, E.Join (E.Dir x) e) ∈ q.calls ∧
          (E.stat (E.Join (E.Dir x) e) = none →
            SyncMap.Load q.g.files (E.Join (E.Dir x) e) ≠ none))) ∧
      (∀ k v, SyncMap.Load q.g.vars k = some v →
        ∃ x doc, SyncMap.Load q.g.files x ≠ none ∧ Parses E x doc ∧
          doc.Env_variables.get k = some v)) := by
  refine ⟨?_, ?_, ?_, ?_⟩
  · intro E fuel p parent path o hforce h
    exact AddFile_force_no_exit E fuel p parent path o h hforce
  · intro E fuel p q parent path err hforce hf
    refine ⟨?_, ?_, ?_⟩
    · rw [AddFile_of_failure E fuel p q parent path err hf, handleError_eq,
        (failure_handled E p q parent path err hf).2, hforce]
      rfl
    · rcases failure_state E p q parent path err hf with rfl | ⟨rfl, _, _⟩ <;> rfl
    · rcases failure_state E p q parent path err hf with rfl | ⟨rfl, _, _⟩ <;> rfl
  · intro E order L fuel silent root hL hfuel
    obtain ⟨o, ho⟩ := AddFile_total E L hL fuel (Proc.start silent true) "" root
      (lt_of_le_of_lt (unregistered_le_length L _) hfuel)
    have hne := AddFile_force_no_exit E fuel _ "" root o ho rfl
    unfold run
    rw [ho]
    cases o with
    | exit c q1 => exact absurd rfl (hne c q1)
    | panic q1 => exact ⟨_, _, rfl, Or.inr rfl⟩
    | ret r q1 =>
      have := AddFile_ret_none E _ _ _ _ _ _ ho
      subst this
      exact ⟨_, _, rfl, Or.inl rfl⟩
  · intro E order fuel silent root q h
    unfold run at h
    cases hc : AddFile E fuel (Proc.start silent true) "" root with
    | none => simp [hc] at h
    | some o =>
      have hne := AddFile_force_no_exit E fuel _ "" root o hc rfl
      cases o with
      | exit c q1 => exact absurd rfl (hne c q1)
      | panic q1 => simp [hc] at h
      | ret r q1 =>
        have := AddFile_ret_none E _ _ _ _ _ _ hc
        subst this
        obtain ⟨hs, hcomp, hprov, _, _⟩ := AddFile_force E fuel _ "" root _ hc rfl rfl
        simp only [Ctl.proc] at hs hcomp hprov
        simp only [hc, Option.some.injEq, Prod.mk.injEq, true_and] at h
        subst h
        have hout : (printVars order q1).stdout = (order q1.g.vars).map exportLine := by
          simp [printVars, Steps.stdout E _ _ hs, Proc.start]
        refine ⟨hout, ?_, ?_⟩
        · intro x doc hx hd
          obtain ⟨h1, h2⟩ := hcomp x rfl hx doc hd
          refine ⟨fun k v hget => ?_, h2⟩
          have hne1 := h1 (k, v) ((GoMap.get_eq_some_iff _ k v).1 hget)
          cases hl : SyncMap.Load q1.g.vars k with
          | none => exact absurd hl hne1
          | some v1 =>
            refine ⟨v1, hl, fun hperm => ?_⟩
            rw [hout]
            exact List.mem_map_of_mem _ (hperm.mem_iff.2 (SyncMap.mem_of_Load _ _ _ hl))
        · intro k v hk
          rcases hprov k v hk with h0 | ⟨x, doc, _, hx, hd, hmem⟩
          · simp [Proc.start, New, SyncMap.Load] at h0
          · exact ⟨x, doc, hx, hd, (GoMap.get_eq_some_iff _ k v).2 hmem⟩

/-- C5, the code at its failing input.  The root defines `A=1` and includes
`null.yaml`, which holds the null document `~`; `force` is set.  For this file
`yaml.Unmarshal` returns no error and leaves `thisYaml` nil, and `AddFile`
panics at `range thisYaml.Includes`: the run ends with exit code 2, no error
was handed to `handleError`, the store is empty (the root's `A=1` is never
merged), standard output is empty and standard error holds the trace of the
runtime, for both values of `silent` and every order of `Range`.  Without the
null include (the abort example with `force`: a missing include among two good
ones) the run ends with code 0, the variables of every good file in the store,
and their export lines on standard output in the order of `Range`. -/
theorem C5_force_null_document_panics :
    (∀ (order : List (String × String) → List (String × String)) (silent : Bool),
      (run nullIncludeEnv order 3 silent true "app.yaml").map
          (fun r => (r.1, r.2.handled, r.2.g.vars, r.2.stdout, r.2.stderr))
        = some (2, [], [], [],
            ["panic: runtime error: invalid memory address or nil pointer dereference\n"])) ∧
    AddFile nullIncludeEnv 1 ((Proc.start false true).loaded "" "app.yaml") "app.yaml" "null.yaml"
      = some (.panic ((((Proc.start false true).loaded "" "app.yaml")).loaded
          "app.yaml" "null.yaml")) ∧
    (∀ (order : List (String × String) → List (String × String)) (silent : Bool),
      (run abortEnv order 3 silent true "app.yaml").map
          (fun r => (r.1, r.2.handled, r.2.g.vars, r.2.stdout))
        = some (0, [.PathError "stat" "missing.yaml" .ENOENT],
            [("A", "1"), ("C", "3"), ("B", "2")],
            (order [("A", "1"), ("C", "3"), ("B", "2")]).map exportLine)) :=
  ⟨fun order silent => by cases silent <;> rfl, rfl,
    fun order silent => by cases silent <;> rfl⟩

end Gaeenv
